import Mathlib

/-!
Verification development for the `ghtar` bundler (`src/ghtar.py`).

The Python source is shallowly embedded: strings become `List Char`, byte
streams become `List Nat` (each element a byte value), Python `assert`
failures and uncaught exceptions become `Option.none`, and a Python function
that returns `Optional[...]` returns an inner `Option`.  Host-filesystem
calls (`os.path.*`, `open`) are abstracted into an explicit `OS` record of
oracles, since their behaviour is environment data, not program text.
-/

namespace GhTar

/-- Python strings are modelled as lists of unicode scalar values. -/
abbrev Str := List Char

/-! ## Low level data converters (`mk_uint8` .. `mk_chunk`)

Each of these Python functions contains an `assert` guarding the value
range; a failing assert raises, which is modelled as `none`.  `to_bytes`
with byte order `"big"` produces big-endian bytes. -/

def mk_uint8 (value : Nat) : Option (List Nat) :=
  if value ≤ 255 then some [value] else none

def mk_uint16 (value : Nat) : Option (List Nat) :=
  if value ≤ 65535 then some [value / 256, value % 256] else none

def mk_bool (value : Bool) : Option (List Nat) :=
  mk_uint8 (if value then 1 else 0)

def mk_ref (index : Nat) : Option (List Nat) :=
  mk_uint16 index

/-- `mk_chunk`: chunk id byte, then the payload size as a big-endian
uint16, then the payload.  The uint16 write fails (assert) when the
payload exceeds 65535 bytes. -/
def mk_chunk (chunk_id : Nat) (chunk_data : List Nat) : Option (List Nat) :=
  if chunk_id ≤ 255 then
    match mk_uint16 chunk_data.length with
    | some len => some (chunk_id :: (len ++ chunk_data))
    | none => none
  else none

/-! ## Block ids -/

def BLOCK_HEADER : Nat := 0
def BLOCK_ASCII : Nat := 1
def BLOCK_UTF16 : Nat := 2
def BLOCK_REL_HOME : Nat := 3
def BLOCK_ASCII_REPLACED_HOME : Nat := 4
def BLOCK_UTF16_REPLACED_HOME : Nat := 5
def BLOCK_FOLDER : Nat := 20
def BLOCK_FILE : Nat := 21
def BLOCK_CHMOD : Nat := 24
def BLOCK_CHOWN : Nat := 25
def BLOCK_CHGROUP : Nat := 26
def BLOCK_NEW_USER : Nat := 40
def BLOCK_NEW_GROUP : Nat := 41
def BLOCK_RM_USER : Nat := 42
def BLOCK_RM_GROUP : Nat := 43
def BLOCK_BUILD : Nat := 80
def BLOCK_TEST : Nat := 81
def BLOCK_LAUNCH : Nat := 82
def BLOCK_COPY : Nat := 83
def BLOCK_MOVE : Nat := 84
def BLOCK_DELETE : Nat := 85

def REPLACED_WITH_HOME : Str := "<[HOME]>".toList

def TEMP_DIR : Str := "~/.tmp".toList

/-! ## Block creators -/

def mk_block_header (version : Nat) : Option (List Nat) := do
  let v ← mk_uint16 version
  let z ← mk_uint16 0
  mk_chunk BLOCK_HEADER (v ++ z)

/-- UTF-16 code units of one scalar value, in the little-endian byte order
produced by CPython's `encode("utf-16")` after its BOM (the two bytes the
source slices off).  A scalar above U+FFFF yields a surrogate pair (four
bytes).  Lean `Char` already excludes lone surrogates, exactly as a
well-formed Python `str` does. -/
def utf16leUnits (c : Char) : List Nat :=
  if c.toNat < 65536 then [c.toNat % 256, c.toNat / 256]
  else
    let v := c.toNat - 65536
    let hi := 55296 + v / 1024
    let lo := 56320 + v % 1024
    [hi % 256, hi / 256, lo % 256, lo / 256]

/-- The `data` loop of `mk_block_string`: consume the encoded byte pairs,
writing `mk_uint16((encoded[i] << 8) + encoded[i+1])` for each pair. -/
def utf16Pairs : List Nat → Option (List Nat)
  | [] => some []
  | a :: b :: rest => do
      let w ← mk_uint16 (a * 256 + b)
      let r ← utf16Pairs rest
      some (w ++ r)
  | [_] => none

/-- `mk_block_string`.  The ASCII branch applies when every character is
below 128 (`encode("ascii")` succeeds); otherwise the UTF-16 branch runs,
and raises (`none`) when the encoding is not two bytes per character,
i.e. when some character lies above U+FFFF. -/
def mk_block_string (index : Nat) (text : Str) (needs_home_replacement : Bool) :
    Option (List Nat) :=
  if text.all (fun c => c.toNat < 128) then do
    let r ← mk_ref index
    let n ← mk_uint16 text.length
    mk_chunk (if needs_home_replacement then BLOCK_ASCII_REPLACED_HOME else BLOCK_ASCII)
      (r ++ n ++ text.map Char.toNat)
  else
    let encoded := text.flatMap utf16leUnits
    if encoded.length = 2 * text.length then do
      let data ← utf16Pairs encoded
      let r ← mk_ref index
      let n ← mk_uint16 text.length
      mk_chunk (if needs_home_replacement then BLOCK_UTF16_REPLACED_HOME else BLOCK_UTF16)
        (r ++ n ++ data)
    else none

def mk_block_rel_home (index : Nat) (text : Str) : Option (List Nat) :=
  if text.all (fun c => c.toNat < 128) then do
    let r ← mk_ref index
    let n ← mk_uint16 text.length
    mk_chunk BLOCK_REL_HOME (r ++ n ++ text.map Char.toNat)
  else none

def mk_block_folder (parent_index name_index : Nat) : Option (List Nat) := do
  let p ← mk_ref parent_index
  let n ← mk_ref name_index
  mk_chunk BLOCK_FOLDER (p ++ n)

def mk_block_file (dirname_index filename_index contents_index : Nat) :
    Option (List Nat) := do
  let d ← mk_ref dirname_index
  let f ← mk_ref filename_index
  let c ← mk_ref contents_index
  mk_chunk BLOCK_FILE (d ++ f ++ c)

def mk_block_chmod (file_name_index perms_index : Nat) (recursive : Bool) :
    Option (List Nat) := do
  let f ← mk_ref file_name_index
  let p ← mk_ref perms_index
  let r ← mk_bool recursive
  mk_chunk BLOCK_CHMOD (f ++ p ++ r)

def mk_block_chown (file_name_index username_index : Nat) (recursive : Bool) :
    Option (List Nat) := do
  let f ← mk_ref file_name_index
  let u ← mk_ref username_index
  let r ← mk_bool recursive
  mk_chunk BLOCK_CHOWN (f ++ u ++ r)

/-- `mk_block_chgroup` in the source passes `BLOCK_CHOWN` as the chunk id,
not `BLOCK_CHGROUP`; the embedding reproduces that literally. -/
def mk_block_chgroup (file_name_index group_index : Nat) (recursive : Bool) :
    Option (List Nat) := do
  let f ← mk_ref file_name_index
  let g ← mk_ref group_index
  let r ← mk_bool recursive
  mk_chunk BLOCK_CHOWN (f ++ g ++ r)

def mk_block_user (username_index password_index : Nat) : Option (List Nat) := do
  let u ← mk_ref username_index
  let p ← mk_ref password_index
  mk_chunk BLOCK_NEW_USER (u ++ p)

def mk_block_group (username_index group_index : Nat) : Option (List Nat) := do
  let u ← mk_ref username_index
  let g ← mk_ref group_index
  mk_chunk BLOCK_NEW_GROUP (u ++ g)

def mk_block_rm_user (username_index : Nat) (rm_home : Bool) : Option (List Nat) := do
  let u ← mk_ref username_index
  let h ← mk_uint8 (if rm_home then 1 else 0)
  mk_chunk BLOCK_RM_USER (u ++ h)

def mk_block_rm_group (username_index group_index : Nat) : Option (List Nat) := do
  let u ← mk_ref username_index
  let g ← mk_ref group_index
  mk_chunk BLOCK_RM_GROUP (u ++ g)

def mk_block_build (source_index target_dir_index target_file_name_index : Nat) :
    Option (List Nat) := do
  let s ← mk_ref source_index
  let d ← mk_ref target_dir_index
  let f ← mk_ref target_file_name_index
  mk_chunk BLOCK_BUILD (s ++ d ++ f)

def mk_block_test (test_index name_index file_index : Nat) : Option (List Nat) := do
  let t ← mk_uint16 test_index
  let n ← mk_ref name_index
  let f ← mk_ref file_index
  mk_chunk BLOCK_TEST (t ++ n ++ f)

def refListBytes : List Nat → Option (List Nat)
  | [] => some []
  | i :: rest => do
      let r ← mk_ref i
      let rs ← refListBytes rest
      some (r ++ rs)

def mk_block_launch (argument_index : List Nat) : Option (List Nat) := do
  if argument_index.length < 1 then none
  else
    let c ← mk_uint8 argument_index.length
    let rs ← refListBytes argument_index
    mk_chunk BLOCK_LAUNCH (c ++ rs)

def mk_block_copy (source_index target_path_idx target_name : Nat) :
    Option (List Nat) := do
  let s ← mk_ref source_index
  let d ← mk_ref target_path_idx
  let n ← mk_ref target_name
  mk_chunk BLOCK_COPY (s ++ d ++ n)

def mk_block_move (source_index target_path_idx target_name : Nat) :
    Option (List Nat) := do
  let s ← mk_ref source_index
  let d ← mk_ref target_path_idx
  let n ← mk_ref target_name
  mk_chunk BLOCK_MOVE (s ++ d ++ n)

def mk_block_delete (file_index : Nat) : Option (List Nat) := do
  let f ← mk_ref file_index
  mk_chunk BLOCK_DELETE f

/-! ## Path utilities (`Blocks._normalize`, `Blocks._split`)

`_normalize` replaces every backslash by `/` and then repeatedly replaces
`//` by `/` until none remains; the loop below merges adjacent slash pairs
one step at a time, which computes the same fixed point. -/

def collapseSlashes : Str → Str
  | [] => []
  | [c] => [c]
  | a :: b :: rest =>
    -- In the merge case `b` is itself `'/'`, so recursing on `b :: rest`
    -- is recursing on the merged string `'/' :: rest`.
    if a = '/' ∧ b = '/' then collapseSlashes (b :: rest)
    else a :: collapseSlashes (b :: rest)

def normalize (name : Str) : Str :=
  collapseSlashes (name.map (fun c => if c = '\\' then '/' else c))

/-- Split a list at its last `/`:  `splitCore l = some (p, n)` when
`l = p ++ '/' :: n` with no `/` in `n`, and `none` when `l` has no `/`.
This computes exactly `(name[:name.rindex('/')], name[name.rindex('/')+1:])`. -/
def splitCore : Str → Option (Str × Str)
  | [] => none
  | c :: rest =>
    match splitCore rest with
    | some (p, n) => some (c :: p, n)
    | none => if c = '/' then some ([], rest) else none

/-- `Blocks._split`: normalize, then split at the last `/`; a string with
no `/` maps to `(itself, "")`. -/
def splitPath (name : Str) : Str × Str :=
  let n := normalize name
  match splitCore n with
  | some (p, nm) => (p, nm)
  | none => (n, [])

/-- Lexicographic comparison of Python strings (code-point order). -/
def strLt : Str → Str → Bool
  | [], [] => false
  | [], _ :: _ => true
  | _ :: _, [] => false
  | a :: as, b :: bs =>
    if a.toNat < b.toNat then true
    else if b.toNat < a.toNat then false
    else strLt as bs

/-! ## `FileManager._strip_trailing_comment` -/

/-- Python's `"//" in line`. -/
def containsSlashSlash : Str → Bool
  | a :: b :: rest => (a = '/' && b = '/') || containsSlashSlash (b :: rest)
  | _ => false

/-- The scanning loop of `_strip_trailing_comment`: state 0 is plain text,
state 1 is inside a string, state 2 is "saw a `/`;" on a second `/` in
state 2 the line is cut just before the previous character. -/
def stripScan (line : Str) : Nat → Nat → Str → Str
  | _, _, [] => line
  | state, pos, c :: rest =>
    if state = 0 then
      if c = '"' then stripScan line 1 (pos + 1) rest
      else if c = '/' then stripScan line 2 (pos + 1) rest
      else stripScan line 0 (pos + 1) rest
    else if state = 1 then
      if c = '"' then stripScan line 0 (pos + 1) rest
      else stripScan line 1 (pos + 1) rest
    else
      if c = '/' then line.take (pos - 1)
      else stripScan line state (pos + 1) rest

def strip_trailing_comment (line : Str) : Str :=
  if containsSlashSlash line then stripScan line 0 0 line else line

/-! ## Python string helpers (`str.splitlines`, `str.strip`) -/

/-- The line-break characters recognised by `str.splitlines`. -/
def isLineBreak (c : Char) : Bool :=
  c = '\n' || c = '\r' || c.toNat = 11 || c.toNat = 12 ||
  c.toNat = 28 || c.toNat = 29 || c.toNat = 30 || c.toNat = 133 ||
  c.toNat = 8232 || c.toNat = 8233

def splitlinesGo (acc : Str) : Str → List Str
  | [] => [acc]
  | '\r' :: '\n' :: rest =>
    if rest = [] then [acc] else acc :: splitlinesGo [] rest
  | c :: rest =>
    if isLineBreak c then (if rest = [] then [acc] else acc :: splitlinesGo [] rest)
    else splitlinesGo (acc ++ [c]) rest

def splitlines (s : Str) : List Str :=
  if s = [] then [] else splitlinesGo [] s

def isPySpace (c : Char) : Bool :=
  c = ' ' || c = '\t' || c = '\n' || c = '\r' || c.toNat = 11 || c.toNat = 12

/-- `str.strip()` (ASCII whitespace suffices for the inputs at hand). -/
def pyStrip (s : Str) : Str :=
  ((s.dropWhile isPySpace).reverse.dropWhile isPySpace).reverse

/-- The regular expression
`^\s*import_code\s*\(\s*"([^"]+)"\s*\)\s*$` (`FileManager.IMPORT_RE`);
returns the captured group. -/
def matchImport (line : Str) : Option Str :=
  let r0 := line.dropWhile isPySpace
  if ("import_code".toList).isPrefixOf r0 then
    match (r0.drop 11).dropWhile isPySpace with
    | '(' :: r2 =>
      match r2.dropWhile isPySpace with
      | '"' :: r3 =>
        let captured := r3.takeWhile (fun c => c ≠ '"')
        if captured = [] then none
        else
          match r3.drop captured.length with
          | '"' :: r4 =>
            match r4.dropWhile isPySpace with
            | ')' :: r5 => if r5.dropWhile isPySpace = [] then some captured else none
            | _ => none
          | _ => none
      | _ => none
    | _ => none
  else none

def GOOD_SRC_FILE_CHARS : Str :=
  "abcdefghijklmnopqrstuvwxyzABCDEFGHIJKLMNOPQRSTUVWXYZ0123456789./".toList

/-! ## File store (`StoredFile`, `ResolvedFile`, `FileManager`)

Host-filesystem behaviour is abstracted into an `OS` record.  The
process-wide `StoredFile._REF_INDEX` counter becomes the per-manager
`nextRef` field (the spec explicitly permits per-assembler counters). -/

structure OS where
  isfile : Str → Bool
  readFile : Str → Option Str
  abspath : Str → Str
  dirname : Str → Str
  joinPath : Str → Str → Str
  basename : Str → Str

structure StoredFile where
  refId : Nat
  localPath : Option Str
  contents : Option Str
  isHomeReplaced : Bool
  isSource : Bool
  requestedGamePath : Option Str
  syntheticGamePath : Option Str
deriving DecidableEq

structure ResolvedFile where
  refId : Nat
  gamePath : Str
  contents : Str
  isHomeReplaced : Bool
deriving DecidableEq

structure FileManager where
  stored : List StoredFile
  nextRef : Nat
deriving DecidableEq

/-- Python truthiness of an `Optional[str]`. -/
def optTruthy : Option Str → Bool
  | some s => s ≠ []
  | none => false

def FileManager.init : FileManager := ⟨[], 0⟩

def FileManager.lookupStored (fm : FileManager) (refId : Nat) : Option StoredFile :=
  fm.stored.find? (fun s => s.refId = refId)

def FileManager.updateStored (fm : FileManager) (refId : Nat)
    (f : StoredFile → StoredFile) : FileManager :=
  { fm with stored := fm.stored.map (fun s => if s.refId = refId then f s else s) }

def FileManager.get_game_file_ref (fm : FileManager) (gameFile : Str) : Option Nat :=
  match fm.stored.find? (fun s => s.requestedGamePath = some gameFile) with
  | some s => some s.refId
  | none => none

/-- `get_game_file_by_ref`; note the Python truthiness tests: an empty
requested or synthetic path behaves like an absent one here. -/
def FileManager.get_game_file_by_ref (fm : FileManager) (refId : Nat)
    (preferSynthetic : Bool) : Option Str :=
  match fm.stored.find? (fun s => s.refId = refId) with
  | none => none
  | some file =>
    if optTruthy file.syntheticGamePath ∧ preferSynthetic then file.syntheticGamePath
    else if optTruthy file.requestedGamePath ∧ ¬ preferSynthetic then file.requestedGamePath
    else if optTruthy file.requestedGamePath then file.requestedGamePath
    else if optTruthy file.syntheticGamePath then file.syntheticGamePath
    else none

def FileManager.has_game_file (fm : FileManager) (gameFile : Str) : Bool :=
  (fm.get_game_file_ref gameFile).isSome

/-- `add_text_contents` returns a `bool` (False on a duplicate target). -/
def FileManager.add_text_contents (fm : FileManager) (gameFile contents : Str) :
    Bool × FileManager :=
  if fm.has_game_file gameFile then (false, fm)
  else
    let nf : StoredFile :=
      ⟨fm.nextRef, none, some contents, false, false, some gameFile, none⟩
    (true, ⟨fm.stored ++ [nf], fm.nextRef + 1⟩)

/-- `add_local_text_file` returns `-1` on error (never `None`, despite the
dead `if ret is None` branch), else the new file's `ref_id`. -/
def FileManager.add_local_text_file (os : OS) (fm : FileManager)
    (gameFile localFile : Str) : Option Int × FileManager :=
  if fm.has_game_file gameFile then (some (-1), fm)
  else if ¬ os.isfile localFile then (some (-1), fm)
  else
    let nf : StoredFile :=
      ⟨fm.nextRef, some localFile, none, false, false, some gameFile, none⟩
    (some (fm.nextRef : Int), ⟨fm.stored ++ [nf], fm.nextRef + 1⟩)

def FileManager.inner_add_local_source_file (os : OS) (fm : FileManager)
    (gameFile : Option Str) (localFile : Str) : Option Nat × FileManager :=
  if optTruthy gameFile ∧ fm.has_game_file (gameFile.getD []) then (none, fm)
  else if ¬ os.isfile localFile then (none, fm)
  else
    let nf : StoredFile :=
      ⟨fm.nextRef, some localFile, none, true, true, gameFile, none⟩
    (some fm.nextRef, ⟨fm.stored ++ [nf], fm.nextRef + 1⟩)

def FileManager.add_local_source_file (os : OS) (fm : FileManager)
    (gameFile : Option Str) (localFile : Str) : Option Nat × FileManager :=
  FileManager.inner_add_local_source_file os fm gameFile localFile

def FileManager.is_same_source (os : OS) (s : StoredFile) (localPath : Str) : Bool :=
  match s.localPath with
  | none => false
  | some lp => s.isSource && lp ≠ [] && os.abspath lp = os.abspath localPath

/-- `FileManager._clean_source_name`.  A name containing characters outside
`GOOD_SRC_FILE_CHARS` (a leading `~` excepted) is relocated under
`~/.tmp/src/dirty<Xs>[n]/...`; the collision scan walks `stored` once,
bumping the counter whenever the current candidate matches. -/
def clean_source_name (fm : FileManager) (gameFile : Str) : Str :=
  if gameFile = [] then []
  else
    let start : Str × Str :=
      match gameFile with
      | '~' :: rest => (['~'], rest)
      | l => ([], l)
    let scanned := start.2.foldl
      (fun (acc : Str × Str) c =>
        if GOOD_SRC_FILE_CHARS.contains c then (acc.1 ++ [c], acc.2)
        else (acc.1 ++ ['X'], acc.2 ++ ['X']))
      (start.1, ([] : Str))
    let cleaned := scanned.1
    let removed := scanned.2
    if removed = [] then gameFile
    else
      let c1 := if (TEMP_DIR ++ ['/']).isPrefixOf cleaned then cleaned.drop 7 else cleaned
      let c2 := if ("src/".toList).isPrefixOf c1 then c1.drop 4 else c1
      let c3 := if ("~/".toList).isPrefixOf c2 then c2.drop 2 else c2
      let c4 := if c3 = [] then ['X'] else c3
      let c5 := if c4.head? ≠ some '/' then '/' :: c4 else c4
      let base := TEMP_DIR ++ "/src/dirty".toList ++ removed
      let nm0 := base ++ c5
      let final := fm.stored.foldl
        (fun (acc : Nat × Str) existing =>
          if existing.syntheticGamePath = some acc.2 then
            (acc.1 + 1, base ++ (Nat.repr (acc.1 + 1)).toList ++ c5)
          else acc)
        (0, nm0)
      final.2

/-- The synthetic-name assignment at the end of `_find_import_file`:
ensure the found file has a `synthetic_game_path` (an empty one counts as
missing, by Python truthiness). -/
def ensureSyntheticName (fm : FileManager) (refId : Nat) (importedPath : Str) :
    FileManager :=
  match fm.lookupStored refId with
  | none => fm
  | some found =>
    if ¬ optTruthy found.syntheticGamePath ∧ ¬ optTruthy found.requestedGamePath then
      let nm := clean_source_name fm (TEMP_DIR ++ "/src/".toList ++ importedPath)
      fm.updateStored refId (fun f => { f with syntheticGamePath := some nm })
    else if ¬ optTruthy found.syntheticGamePath ∧ optTruthy found.requestedGamePath then
      let nm := clean_source_name fm (found.requestedGamePath.getD [])
      fm.updateStored refId (fun f => { f with syntheticGamePath := some nm })
    else fm

/-- `FileManager._find_import_file`: look the imported path up relative to
the referring file; create and enqueue a new source when it is unknown;
make sure it carries a synthetic path.  Returns the found file's `ref_id`
(`none` when the local file does not exist). -/
def FileManager.find_import_file (os : OS) (fm : FileManager)
    (referringPath importedPath : Str) (toScan : List Nat) :
    FileManager × List Nat × Option Nat :=
  let baseDir := os.abspath (os.dirname referringPath)
  let includedLocal := os.joinPath baseDir importedPath
  match fm.stored.find? (fun s => FileManager.is_same_source os s includedLocal) with
  | some s =>
    (ensureSyntheticName fm s.refId importedPath, toScan, some s.refId)
  | none =>
    match FileManager.inner_add_local_source_file os fm none includedLocal with
    | (none, fm1) => (fm1, toScan, none)
    | (some r, fm1) =>
      (ensureSyntheticName fm1 r importedPath, toScan ++ [r], some r)

/-- One line of `_clean_source`: strip, strip a trailing comment, rewrite a
matched `import_code` line (dropping it and clearing the ok flag when
the include cannot be resolved). -/
def cleanOneLine (os : OS) (fm : FileManager) (srcRef : Nat) (localPath : Str)
    (toScan : List Nat) (line : Str) :
    FileManager × List Nat × Option Str :=
  let line1 := strip_trailing_comment (pyStrip line)
  match matchImport line1 with
  | none => (fm, toScan, some line1)
  | some includeRef =>
    match FileManager.find_import_file os fm localPath includeRef toScan with
    | (fm1, toScan1, none) => (fm1, toScan1, none)
    | (fm1, toScan1, some fRef) =>
      match fm1.lookupStored fRef with
      | none => (fm1, toScan1, none)
      | some imported =>
        if ¬ optTruthy imported.syntheticGamePath then (fm1, toScan1, none)
        else
          let ig := imported.syntheticGamePath.getD []
          let (ig1, fm2) :=
            if ("~/".toList).isPrefixOf ig then
              (REPLACED_WITH_HOME ++ ig.drop 1,
               fm1.updateStored srcRef (fun f => { f with isHomeReplaced := true }))
            else (ig, fm1)
          (fm2, toScan1, some ("import_code(\"".toList ++ ig1 ++ "\")".toList))

def cleanLinesGo (os : OS) (srcRef : Nat) (localPath : Str) :
    List Str → FileManager → List Nat → Str → Bool →
    FileManager × List Nat × Str × Bool
  | [], fm, toScan, acc, isOk => (fm, toScan, acc, isOk)
  | line :: rest, fm, toScan, acc, isOk =>
    match cleanOneLine os fm srcRef localPath toScan line with
    | (fm1, toScan1, none) =>
      cleanLinesGo os srcRef localPath rest fm1 toScan1 acc false
    | (fm1, toScan1, some out) =>
      cleanLinesGo os srcRef localPath rest fm1 toScan1 (acc ++ '\n' :: out) isOk

/-- `FileManager._clean_source`; the asserts on `contents`/`local_path`
are modelled as `none`.  The rewritten content is written back into the
referring file's `contents`; the boolean is the function's return value. -/
def FileManager.clean_source (os : OS) (fm : FileManager) (srcRef : Nat)
    (toScan : List Nat) : Option (FileManager × List Nat × Bool) :=
  match fm.lookupStored srcRef with
  | none => none
  | some src =>
    match src.contents, src.localPath with
    | some contents, some localPath =>
      match cleanLinesGo os srcRef localPath (splitlines contents) fm toScan [] true with
      | (fm1, toScan1, acc, isOk) =>
        some (fm1.updateStored srcRef (fun f => { f with contents := some acc }),
              toScan1, isOk)
    | _, _ => none

/-! ## `FileManager.process_file_map` -/

/-- Add one resolved file to the result map; the Python code asserts the
path is not yet a key. -/
def publishResolved (ret : List (Str × ResolvedFile)) (path : Str)
    (s : StoredFile) : Option (List (Str × ResolvedFile)) :=
  if ret.any (fun e => e.1 = path) then none
  else some (ret ++ [(path, ⟨s.refId, path, s.contents.getD [], s.isHomeReplaced⟩)])

/-- Publish at `requested_game_path` and/or `synthetic_game_path`,
whichever is truthy. -/
def publishKnownPaths (ret : List (Str × ResolvedFile)) (s : StoredFile) :
    Option (List (Str × ResolvedFile)) := do
  let ret ←
    if optTruthy s.requestedGamePath then
      publishResolved ret (s.requestedGamePath.getD []) s
    else some ret
  if optTruthy s.syntheticGamePath then
    publishResolved ret (s.syntheticGamePath.getD []) s
  else some ret

/-- The `while subname in ret` search for a fresh
`~/.tmp/src/<k>/<basename>`: the first `k` whose name is not yet a key.
Among `0 .. ret.length` one is always free, so the search is bounded. -/
def freshSubname (ret : List (Str × ResolvedFile)) (basename : Str) : Str :=
  let candidate := fun (k : Nat) =>
    TEMP_DIR ++ "/src/".toList ++ (Nat.repr k).toList ++ '/' :: basename
  match (List.range (ret.length + 1)).find?
      (fun k => ¬ ret.any (fun e => e.1 = candidate k)) with
  | some k => candidate k
  | none => candidate (ret.length + 1)

/-- The body of `process_file_map`'s loop for one popped stored file. -/
def pfmStep (os : OS) (fm : FileManager) (refId : Nat) (toScan : List Nat)
    (ret : List (Str × ResolvedFile)) (isOk : Bool) :
    Option (FileManager × List Nat × List (Str × ResolvedFile) × Bool) := do
  match fm.lookupStored refId with
  | none => none
  | some s0 =>
    -- Lazy load.
    let (fm, isOk) :=
      if s0.contents = none ∧ optTruthy s0.localPath then
        match os.readFile (s0.localPath.getD []) with
        | none => (fm.updateStored refId (fun f => { f with contents := some [] }), false)
        | some raw => (fm.updateStored refId (fun f => { f with contents := some raw }), isOk)
      else (fm, isOk)
    match fm.lookupStored refId with
    | none => none
    | some s1 =>
      if s1.contents ≠ none ∧ s1.isSource then
        match FileManager.clean_source os fm refId toScan with
        | none => none
        | some (fm, toScan, false) => some (fm, toScan, ret, false)
        | some (fm, toScan, true) =>
          match fm.lookupStored refId with
          | none => none
          | some s2 =>
            let ret0 ← publishKnownPaths ret s2
            if ¬ optTruthy s2.requestedGamePath ∧ ¬ optTruthy s2.syntheticGamePath then
              let basename :=
                if optTruthy s2.localPath then os.basename (s2.localPath.getD [])
                else (Nat.repr ret0.length).toList
              let subname := freshSubname ret0 basename
              let synth := clean_source_name fm subname
              let fm := fm.updateStored refId
                (fun f => { f with syntheticGamePath := some synth })
              match fm.lookupStored refId with
              | none => none
              | some s3 =>
                let ret1 ← publishResolved ret0 synth s3
                some (fm, toScan, ret1, isOk)
            else some (fm, toScan, ret0, isOk)
      else if s1.contents ≠ none ∧ ¬ s1.isSource then
        let ret1 ← publishKnownPaths ret s1
        some (fm, toScan, ret1, isOk)
      else
        some (fm, toScan, ret, isOk)

/-- The `while to_scan:` loop; `to_scan.pop()` removes the LAST element.
The queue can grow while it runs, so the recursion is fuelled; exhausted
fuel is reported as `none`, like a crash. -/
def pfmLoop (os : OS) : Nat → FileManager → List Nat →
    List (Str × ResolvedFile) → Bool →
    Option (FileManager × List (Str × ResolvedFile) × Bool)
  | 0, _, _, _, _ => none
  | fuel + 1, fm, toScan, ret, isOk =>
    match toScan.getLast? with
    | none => some (fm, ret, isOk)
    | some refId =>
      match pfmStep os fm refId toScan.dropLast ret isOk with
      | none => none
      | some (fm1, toScan1, ret1, isOk1) => pfmLoop os fuel fm1 toScan1 ret1 isOk1

/-- `FileManager.process_file_map`: `none` models a crash (or exhausted
fuel); the inner `Option` is the Python return value, `None` on a
recorded error. -/
def FileManager.process_file_map (os : OS) (fuel : Nat) (fm : FileManager) :
    Option (FileManager × Option (List ResolvedFile)) :=
  match pfmLoop os fuel fm (fm.stored.map (fun s => s.refId)) [] true with
  | none => none
  | some (fm1, ret, isOk) =>
    some (fm1, if isOk then some (ret.map (fun e => e.2)) else none)

/-! ## Block storage (`Blocks`) -/

/-- An entry of `_exec_blocks`: raw chunk bytes, or a deferred
`(is_build, name)` pair. -/
inductive ExecEntry where
  | raw : List Nat → ExecEntry
  | deferred : Bool → Str → ExecEntry
deriving DecidableEq

structure Blocks where
  strings : List (Str × Nat)
  homeReplaceStrings : List (Str × Nat)
  relPaths : List (Str × Nat)
  stringIdx : Nat
  folders : List (Str × List Nat)
  files : FileManager
  testFiles : List (Str × Nat)
  buildFiles : List (Str × (Nat × Nat × Nat))
  userBlocks : List (List Nat)
  groupBlocks : List (List Nat)
  execBlocks : List ExecEntry
  setupProblems : Bool
deriving DecidableEq

def Blocks.init : Blocks :=
  ⟨[], [], [], 0, [], FileManager.init, [], [], [], [], [], false⟩

def assocGet (pool : List (Str × Nat)) (text : Str) : Option Nat :=
  match pool.find? (fun e => e.1 = text) with
  | some e => some e.2
  | none => none

def assocSetBuild (m : List (Str × (Nat × Nat × Nat))) (k : Str)
    (v : Nat × Nat × Nat) : List (Str × (Nat × Nat × Nat)) :=
  if m.any (fun e => e.1 = k) then
    m.map (fun e => if e.1 = k then (k, v) else e)
  else m ++ [(k, v)]

def assocSetNat (m : List (Str × Nat)) (k : Str) (v : Nat) : List (Str × Nat) :=
  if m.any (fun e => e.1 = k) then
    m.map (fun e => if e.1 = k then (k, v) else e)
  else m ++ [(k, v)]

def Blocks.add_string (b : Blocks) (text : Str) : Nat × Blocks :=
  match assocGet b.strings text with
  | some i => (i, b)
  | none =>
    (b.stringIdx, { b with strings := b.strings ++ [(text, b.stringIdx)],
                           stringIdx := b.stringIdx + 1 })

def Blocks.add_home_replace_string (b : Blocks) (text : Str) : Nat × Blocks :=
  match assocGet b.homeReplaceStrings text with
  | some i => (i, b)
  | none =>
    (b.stringIdx,
     { b with homeReplaceStrings := b.homeReplaceStrings ++ [(text, b.stringIdx)],
              stringIdx := b.stringIdx + 1 })

def Blocks.add_rel_path (b : Blocks) (text : Str) : Nat × Blocks :=
  match assocGet b.relPaths text with
  | some i => (i, b)
  | none =>
    (b.stringIdx, { b with relPaths := b.relPaths ++ [(text, b.stringIdx)],
                           stringIdx := b.stringIdx + 1 })

/-- `Blocks._add_path`.  `"~"` and `"~/..."` land in the home-relative
pool; otherwise trailing slashes are stripped (`while text[-1] == "/"`,
which raises when the string is all slashes) and the plain pool is used. -/
def Blocks.add_path (b : Blocks) (text : Str) : Option (Nat × Blocks) :=
  if text = "~".toList then some (b.add_rel_path [])
  else if text.take 2 = "~/".toList then some (b.add_rel_path (text.drop 2))
  else if text ≠ "/".toList ∧ text ≠ [] then
    let stripped := (text.reverse.dropWhile (fun c => c = '/')).reverse
    if stripped = [] then none
    else some (b.add_string stripped)
  else some (b.add_string text)

/-- `Blocks.add_folder`; the recursion walks to the root adding missing
ancestors.  Each recursive step passes the parent, which is strictly
shorter than the normalized argument, so `folderName.length + 1` units of
fuel always suffice; the exhaustion branch is unreachable. -/
def Blocks.add_folder_fuel : Nat → Blocks → Str → Option Blocks
  | 0, _, _ => none
  | fuel + 1, b, folderName =>
    if folderName = "/".toList ∨ folderName = "~".toList then some b
    else
      let pn := splitPath folderName
      if pn.2 = [] then some b
      else
        let normalized := pn.1 ++ '/' :: pn.2
        if b.folders.any (fun e => e.1 = normalized) then some b
        else
          match Blocks.add_folder_fuel fuel b pn.1 with
          | none => none
          | some b1 =>
            match b1.add_path pn.1 with
            | none => none
            | some (parentIdx, b2) =>
              let (nameIdx, b3) := b2.add_string pn.2
              match mk_block_folder parentIdx nameIdx with
              | none => none
              | some blk =>
                some { b3 with folders := b3.folders ++ [(normalized, blk)] }

def Blocks.add_folder (b : Blocks) (folderName : Str) : Option Blocks :=
  Blocks.add_folder_fuel (folderName.length + 1) b folderName

def Blocks.add_local_text_file (os : OS) (b : Blocks) (gameFile localFile : Str) :
    Blocks :=
  let r := FileManager.add_local_text_file os b.files gameFile localFile
  -- Python tests `... is None`, but the value is an int (-1 on error), so
  -- `_setup_problems` is never set on this path.
  if r.1 = none then { b with files := r.2, setupProblems := true }
  else { b with files := r.2 }

def Blocks.add_local_source_file (os : OS) (b : Blocks) (gameFile localFile : Str) :
    Blocks :=
  match FileManager.add_local_source_file os b.files (some gameFile) localFile with
  | (none, fm) => { b with files := fm, setupProblems := true }
  | (some _, fm) => { b with files := fm }

def Blocks.add_contents_file (b : Blocks) (gameFile contents : Str) : Blocks :=
  let r := b.files.add_text_contents gameFile contents
  -- Python tests `... is None`, but `add_text_contents` returns a bool
  -- (False on a duplicate target), so the test is always false and
  -- `_setup_problems` is never set on this path.
  { b with files := r.2 }

def Blocks.add_test_file (os : OS) (b : Blocks) (name localFile : Str) : Blocks :=
  match FileManager.add_local_source_file os b.files none localFile with
  | (none, fm) => { b with files := fm, setupProblems := true }
  | (some refId, fm) =>
    { b with files := fm,
             testFiles := assocSetNat b.testFiles name refId,
             execBlocks := b.execBlocks ++ [ExecEntry.deferred false name] }

def Blocks.add_build (b : Blocks) (source target : Str) : Option Blocks := do
  let pn := splitPath target
  let b ← b.add_folder pn.1
  let (dirnameIdx, b) ← b.add_path pn.1
  let (fnameIdx, b) := b.add_string pn.2
  match b.files.get_game_file_ref source with
  | none => do
    let (sourceIdx, b) ← b.add_path (normalize source)
    let blk ← mk_block_build sourceIdx dirnameIdx fnameIdx
    some { b with execBlocks := b.execBlocks ++ [ExecEntry.raw blk] }
  | some refId =>
    some { b with buildFiles := assocSetBuild b.buildFiles source (refId, dirnameIdx, fnameIdx),
                  execBlocks := b.execBlocks ++ [ExecEntry.deferred true source] }

/-- `Blocks._add_file` (the final assembly phase); `assert name` models as
`none` when the file name part is empty. -/
def Blocks.add_file (b : Blocks) (fileName contents : Str) (replaceHome : Bool) :
    Option (List Nat × Blocks) := do
  let pn := splitPath fileName
  if pn.2 = [] then none
  else do
    let b ← b.add_folder pn.1
    let (dirnameIdx, b) ← b.add_path pn.1
    let (fnameIdx, b) := b.add_string pn.2
    let (contentsIdx, b) :=
      if replaceHome then b.add_home_replace_string contents else b.add_string contents
    let blk ← mk_block_file dirnameIdx fnameIdx contentsIdx
    some (blk, b)

def Blocks.add_user (b : Blocks) (username password : Str) : Option Blocks := do
  let (uIdx, b) := b.add_string username
  let (pIdx, b) := b.add_string password
  let blk ← mk_block_user uIdx pIdx
  some { b with userBlocks := b.userBlocks ++ [blk] }

def Blocks.add_group (b : Blocks) (username group : Str) : Option Blocks := do
  let (uIdx, b) := b.add_string username
  let (gIdx, b) := b.add_string group
  let blk ← mk_block_group uIdx gIdx
  some { b with groupBlocks := b.groupBlocks ++ [blk] }

def Blocks.add_rm_user (b : Blocks) (username : Str) (rmHome : Bool) :
    Option Blocks := do
  let (uIdx, b) := b.add_string username
  let blk ← mk_block_rm_user uIdx rmHome
  some { b with execBlocks := b.execBlocks ++ [ExecEntry.raw blk] }

def Blocks.add_rm_group (b : Blocks) (username group : Str) : Option Blocks := do
  let (uIdx, b) := b.add_string username
  let (gIdx, b) := b.add_string group
  let blk ← mk_block_rm_group uIdx gIdx
  some { b with execBlocks := b.execBlocks ++ [ExecEntry.raw blk] }

def Blocks.add_chmod (b : Blocks) (fileName perms : Str) (recursive : Bool) :
    Option Blocks := do
  let (fIdx, b) ← b.add_path (normalize fileName)
  let (pIdx, b) := b.add_string perms
  let blk ← mk_block_chmod fIdx pIdx recursive
  some { b with execBlocks := b.execBlocks ++ [ExecEntry.raw blk] }

def Blocks.add_chown (b : Blocks) (fileName username : Str) (recursive : Bool) :
    Option Blocks := do
  let (fIdx, b) ← b.add_path (normalize fileName)
  let (uIdx, b) := b.add_string username
  let blk ← mk_block_chown fIdx uIdx recursive
  some { b with execBlocks := b.execBlocks ++ [ExecEntry.raw blk] }

def Blocks.add_chgroup (b : Blocks) (fileName group : Str) (recursive : Bool) :
    Option Blocks := do
  let (fIdx, b) ← b.add_path (normalize fileName)
  let (gIdx, b) := b.add_string group
  let blk ← mk_block_chgroup fIdx gIdx recursive
  some { b with execBlocks := b.execBlocks ++ [ExecEntry.raw blk] }

def addPathsList (b : Blocks) : List Str → Option (List Nat × Blocks)
  | [] => some ([], b)
  | a :: rest => do
    let (i, b1) ← b.add_path a
    let (is, b2) ← addPathsList b1 rest
    some (i :: is, b2)

def Blocks.add_launch (b : Blocks) (args : List Str) : Option Blocks := do
  let (argIdx, b) ← addPathsList b args
  let blk ← mk_block_launch argIdx
  some { b with execBlocks := b.execBlocks ++ [ExecEntry.raw blk] }

def Blocks.add_copy (b : Blocks) (source target : Str) : Option Blocks := do
  let (sourceIdx, b) ← b.add_path (normalize source)
  let pn := splitPath target
  let b ← b.add_folder pn.1
  let (dirnameIdx, b) ← b.add_path pn.1
  let (fnameIdx, b) := b.add_string pn.2
  let blk ← mk_block_copy sourceIdx dirnameIdx fnameIdx
  some { b with execBlocks := b.execBlocks ++ [ExecEntry.raw blk] }

def Blocks.add_move (b : Blocks) (source target : Str) : Option Blocks := do
  let (sourceIdx, b) ← b.add_path (normalize source)
  let pn := splitPath target
  let b ← b.add_folder pn.1
  let (dirnameIdx, b) ← b.add_path pn.1
  let (fnameIdx, b) := b.add_string pn.2
  let blk ← mk_block_move sourceIdx dirnameIdx fnameIdx
  some { b with execBlocks := b.execBlocks ++ [ExecEntry.raw blk] }

def Blocks.add_delete (b : Blocks) (path : Str) : Option Blocks := do
  let (pIdx, b) ← b.add_path (normalize path)
  let blk ← mk_block_delete pIdx
  some { b with execBlocks := b.execBlocks ++ [ExecEntry.raw blk] }

/-! ## `Blocks.assemble` -/

/-- Build the file blocks for the resolved files, mutating the pools and
folders along the way. -/
def addFileBlocks (b : Blocks) : List ResolvedFile → Option (List (List Nat) × Blocks)
  | [] => some ([], b)
  | rf :: rest => do
    let (blk, b1) ← b.add_file rf.gamePath rf.contents rf.isHomeReplaced
    let (blks, b2) ← addFileBlocks b1 rest
    some (blk :: blks, b2)

/-- The exec-block resolution loop of `assemble`: raw entries pass
through; deferred build/test entries are resolved against the file store
now (a failed lookup records a setup problem). -/
def resolveExecEntries (b : Blocks) (out : List (List Nat)) :
    List ExecEntry → Option (Blocks × List (List Nat))
  | [] => some (b, out)
  | ExecEntry.raw blk :: rest => resolveExecEntries b (out ++ [blk]) rest
  | ExecEntry.deferred true name :: rest =>
    (match b.buildFiles.find? (fun e => e.1 = name) with
     | none => none
     | some entry =>
       let refId := entry.2.1
       let dirnameIdx := entry.2.2.1
       let fnameIdx := entry.2.2.2
       match b.files.get_game_file_by_ref refId true with
       | none => resolveExecEntries { b with setupProblems := true } out rest
       | some gameFile =>
         if gameFile = [] then
           resolveExecEntries { b with setupProblems := true } out rest
         else
           match b.add_path gameFile with
           | none => none
           | some (srcIdx, b1) =>
             match mk_block_build srcIdx dirnameIdx fnameIdx with
             | none => none
             | some blk => resolveExecEntries b1 (out ++ [blk]) rest)
  | ExecEntry.deferred false name :: rest =>
    (match b.testFiles.find? (fun e => e.1 = name) with
     | none => none
     | some entry =>
       let refId := entry.2
       match b.files.get_game_file_by_ref refId true with
       | none => resolveExecEntries { b with setupProblems := true } out rest
       | some gameFile =>
         let testIdx := out.length
         let (nameIdx, b1) := b.add_string name
         match b1.add_path gameFile with
         | none => none
         | some (fileIdx, b2) =>
           match mk_block_test testIdx nameIdx fileIdx with
           | none => none
           | some blk => resolveExecEntries b2 (out ++ [blk]) rest)

/-- Phases of `assemble` up to (and including) exec resolution: resolve
the file map, emit file blocks, resolve deferred exec entries.  Returns
the final `Blocks` state, plus `none` in the second component when
`process_file_map` reported an error (Python then returns `None`). -/
def Blocks.assemblePhases (os : OS) (fuel : Nat) (b : Blocks) :
    Option (Blocks × Option (List (List Nat) × List (List Nat))) :=
  match FileManager.process_file_map os fuel b.files with
  | none => none
  | some (fm1, none) => some ({ b with files := fm1 }, none)
  | some (fm1, some resolved) =>
    match addFileBlocks { b with files := fm1 } resolved with
    | none => none
    | some (fileBlocks, b2) =>
      match resolveExecEntries b2 [] b2.execBlocks with
      | none => none
      | some (b3, execOut) => some (b3, some (fileBlocks, execOut))

/-- Stable ascending sort of the folder list by path
(`sorted(self._folders, key=lambda a: a[0])`). -/
def insertFolder (x : Str × List Nat) : List (Str × List Nat) → List (Str × List Nat)
  | [] => [x]
  | y :: rest => if strLt x.1 y.1 then x :: y :: rest else y :: insertFolder x rest

def sortFolders (l : List (Str × List Nat)) : List (Str × List Nat) :=
  l.foldl (fun acc x => insertFolder x acc) []

def emitPool (pool : List (Str × Nat)) (needsHome : Bool) : Option (List Nat)
  :=
  match pool with
  | [] => some []
  | (text, idx) :: rest => do
    let blk ← mk_block_string idx text needsHome
    let rs ← emitPool rest needsHome
    some (blk ++ rs)

def emitRelPool (pool : List (Str × Nat)) : Option (List Nat) :=
  match pool with
  | [] => some []
  | (text, idx) :: rest => do
    let blk ← mk_block_rel_home idx text
    let rs ← emitRelPool rest
    some (blk ++ rs)

/-- `Blocks.assemble`.  The outer `Option` models Python crashes (and
exhausted fuel); the inner one is the function's `Optional` result, which
is `None` when the file map failed or any setup problem was recorded. -/
def Blocks.assemble (os : OS) (fuel : Nat) (b : Blocks) :
    Option (Option (List Nat)) :=
  match b.assemblePhases os fuel with
  | none => none
  | some (_, none) => some none
  | some (bf, some (fileBlocks, execOut)) =>
    match mk_block_header 1 with
    | none => none
    | some header =>
      match emitPool bf.strings false with
      | none => none
      | some plainChunks =>
        match emitPool bf.homeReplaceStrings true with
        | none => none
        | some homeChunks =>
          match emitRelPool bf.relPaths with
          | none => none
          | some relChunks =>
            let folderBytes := ((sortFolders bf.folders).map (fun e => e.2)).flatten
            let stream := header ++ plainChunks ++ homeChunks ++ relChunks ++
              folderBytes ++ fileBlocks.flatten ++ bf.userBlocks.flatten ++
              bf.groupBlocks.flatten ++ execOut.flatten
            if bf.setupProblems then some none else some (some stream)

/-- The full paths of the folder chunks of the assembled stream, in
emission order (the folder list sorted by path). -/
def assembledFolderPaths (os : OS) (fuel : Nat) (b : Blocks) :
    Option (List Str) :=
  match b.assemblePhases os fuel with
  | some (bf, some _) => some ((sortFolders bf.folders).map (fun e => e.1))
  | _ => none

/-! ## Manifest dispatch (the parts the claims touch)

Parsed JSON values are modelled by `PyVal`; note that `json.load` produces
Python `list`s for arrays, never `tuple`s. -/

inductive PyVal where
  | pstr : Str → PyVal
  | pint : Int → PyVal
  | pbool : Bool → PyVal
  | plist : List PyVal → PyVal
  | ptuple : List PyVal → PyVal
  | pnone : PyVal

def PyVal.isStr : PyVal → Bool
  | PyVal.pstr _ => true
  | _ => false

def PyVal.isTupleOrStr : PyVal → Bool
  | PyVal.ptuple _ => true
  | PyVal.pstr _ => true
  | _ => false

/-- `data.get(key)`: `none` models the Python `None` default. -/
def dataGet (data : List (Str × PyVal)) (key : Str) : Option PyVal :=
  match data.find? (fun e => e.1 = key) with
  | some e => some e.2
  | none => none

def pyAsStr : PyVal → Option Str
  | PyVal.pstr s => some s
  | _ => none

def pyElems : PyVal → Option (List PyVal)
  | PyVal.ptuple l => some l
  | PyVal.plist l => some l
  | PyVal.pstr s => some (s.map (fun c => PyVal.pstr [c]))
  | _ => none

def pyStrList : List PyVal → Option (List Str)
  | [] => some []
  | v :: rest => do
    let s ← pyAsStr v
    let ss ← pyStrList rest
    some (s :: ss)

/-- `parse_launch_block`.  A missing `arguments` becomes the empty tuple;
a string becomes a one-element *list*; the subsequent type check accepts
only tuples and strings, so every list (including every JSON array and
the converted string) is rejected with an error and the blocks are left
untouched. -/
def parse_launch_block (blocks : Blocks) (data : List (Str × PyVal)) :
    Option (Bool × Blocks) :=
  let filename := dataGet data ("cmd".toList)
  let arguments0 :=
    match dataGet data ("arguments".toList) with
    | none => PyVal.ptuple []
    | some PyVal.pnone => PyVal.ptuple []
    | some v => v
  let arguments1 :=
    match arguments0 with
    | PyVal.pstr s => PyVal.plist [PyVal.pstr s]
    | v => v
  match filename with
  | some (PyVal.pstr cmd) =>
    if ¬ arguments1.isTupleOrStr then some (false, blocks)
    else
      match pyElems arguments1 with
      | none => none
      | some elems =>
        match pyStrList elems with
        | none => none
        | some argStrs =>
          match blocks.add_launch (cmd :: argStrs) with
          | none => none
          | some b1 => some (true, b1)
  | _ => some (false, blocks)

/-- The keys of `BLOCK_TYPE_COMMANDS`: the manifest block types the
dispatcher `parse_block_cmd` recognises. -/
def BLOCK_TYPE_KEYS : List Str :=
  ["folder", "file", "source", "test", "build", "compile", "user", "group",
   "rm-user", "rm-group", "chmod", "chown", "chgroup", "exec", "run",
   "copy", "cp", "move", "mv", "rename", "ren", "delete", "del", "rm",
   "about", "bundle"].map String.toList

/-- `parse_chown_block`, restricted to its dispatch into the assembler: an
`owner` of the form `user:group` (a colon in a position `0 ≤ cpos <
len-1`) yields both an `add_chown` and an `add_chgroup` with the same
recursion flag. -/
def parse_chown_block (blocks : Blocks) (data : List (Str × PyVal)) :
    Option (Bool × Blocks) :=
  let filename := dataGet data ("path".toList)
  let recursive :=
    match dataGet data ("recursive".toList) with
    | none => some false
    | some (PyVal.pbool v) => some v
    | some _ => none
  let owner := dataGet data ("owner".toList)
  let user := dataGet data ("user".toList)
  let userTruthy : Bool :=
    match user with
    | some (PyVal.pstr s) => s ≠ []
    | some (PyVal.pint n) => n ≠ 0
    | some (PyVal.pbool v) => v
    | some (PyVal.plist l) => ¬ l.isEmpty
    | some (PyVal.ptuple l) => ¬ l.isEmpty
    | some PyVal.pnone => false
    | none => false
  match filename, recursive with
  | some (PyVal.pstr fn), some recv =>
    (match owner with
     | some (PyVal.pstr ow) =>
       if userTruthy then some (false, blocks)
       else
         (match ow.findIdx? (fun c => c = ':') with
          | some cpos =>
            if cpos < ow.length - 1 then do
              let b1 ← blocks.add_chown fn (ow.take cpos) recv
              let b2 ← b1.add_chgroup fn (ow.drop (cpos + 1)) recv
              some (true, b2)
            else do
              let b1 ← blocks.add_chown fn ow recv
              some (true, b1)
          | none => do
            let b1 ← blocks.add_chown fn ow recv
            some (true, b1))
     | _ =>
       match user with
       | some (PyVal.pstr us) => do
         let b1 ← blocks.add_chown fn us recv
         some (true, b1)
       | _ => some (false, blocks))
  | _, _ => some (false, blocks)

/-! ## Compression

`Counter` is embedded as an insertion-ordered association list (which is
exactly how a CPython `Counter` iterates), `most_common` as a stable sort
by descending count, `list.sort` as a stable sort by ascending key.  A
`Dict[bytes, int]` whose values are the positions `0, 1, 2, ...` in
insertion order is embedded as the plain list of its keys (the keys fed
to it below are pairwise distinct: multi-byte substrings are distinct
`Counter` keys, single bytes likewise, and the two sets differ in
length). -/

def counterAdd : List (List Nat × Nat) → List Nat → List (List Nat × Nat)
  | [], k => [(k, 1)]
  | (k', n) :: rest, k =>
    if k' = k then (k', n + 1) :: rest else (k', n) :: counterAdd rest k

/-- All substrings of length 2..15, in the iteration order of the
histogram loop (`for count in range(2, 16): for pos in range(0, body_len
- count + 1)`). -/
def substringKeys (body : List Nat) : List (List Nat) :=
  (List.range' 2 14).flatMap (fun count =>
    (List.range (body.length + 1 - count)).map (fun pos => (body.drop pos).take count))

def insertCountDesc (x : List Nat × Nat) : List (List Nat × Nat) → List (List Nat × Nat)
  | [] => [x]
  | y :: rest => if x.2 ≤ y.2 then y :: insertCountDesc x rest else x :: y :: rest

/-- `Counter.most_common`: stable sort by descending count. -/
def sortCountDesc (l : List (List Nat × Nat)) : List (List Nat × Nat) :=
  l.foldl (fun acc x => insertCountDesc x acc) []

def insertCountAsc (x : List Nat × Nat) : List (List Nat × Nat) → List (List Nat × Nat)
  | [] => [x]
  | y :: rest => if y.2 ≤ x.2 then y :: insertCountAsc x rest else x :: y :: rest

/-- `common.sort(key=lambda a: a[1])`: stable sort by ascending count. -/
def sortCountAsc (l : List (List Nat × Nat)) : List (List Nat × Nat) :=
  l.foldl (fun acc x => insertCountAsc x acc) []

/-- The `histo` counter of `compress_dictionary_creation`. -/
def dcHisto (body : List Nat) : List (List Nat × Nat) :=
  (substringKeys body).foldl counterAdd []

/-- The `single_values` counter of `compress_dictionary_creation`. -/
def dcSingles (body : List Nat) : List (List Nat × Nat) :=
  (body.map (fun v => [v])).foldl counterAdd []

/-- The `common` list of `compress_dictionary_creation`: the top
`4095 - #distinct bytes` substrings, then every distinct single byte,
sorted by ascending frequency. -/
def dcCommon (body : List Nat) : List (List Nat × Nat) :=
  sortCountAsc
    ((sortCountDesc (dcHisto body)).take (4095 - (dcSingles body).length) ++
      sortCountDesc (dcSingles body))

/-- `compress_dictionary_creation`: histogram the substrings, pick the
top `4095 - #distinct bytes` of them, append every distinct single byte,
sort by ascending frequency and assign dense indices.  Returns the
maximum entry length and the dictionary (as its key list in index
order); the `assert len(common) <= 4095` models as `none`. -/
def compress_dictionary_creation (body : List Nat) :
    Option (Nat × List (List Nat)) :=
  let common := dcCommon body
  if common.length ≤ 4095 then
    some (common.foldl (fun m e => max m e.1.length) 0, common.map (fun e => e.1))
  else none

/-- `reverse_lookup.get(sub)`: the index assigned to a key, i.e. its
position in the dictionary's key list (the keys are distinct). -/
def dictGet : List (List Nat) → List Nat → Option Nat
  | [], _ => none
  | e :: rest, k => if e = k then some 0 else (dictGet rest k).map (fun i => i + 1)

/-- The inner `while tail > pos` loop of `compress_encoded_body`: try the
substring lengths `n, n-1, ..., 1` and return the first dictionary hit
together with the matched length. -/
def tryLen (rev : List (List Nat)) (suffix : List Nat) : Nat → Option (Nat × Nat)
  | 0 => none
  | l + 1 =>
    match dictGet rev (suffix.take (l + 1)) with
    | some i => some (i, l + 1)
    | none => tryLen rev suffix l

/-- The outer cursor loop of `compress_encoded_body`; a position where no
dictionary entry matches raises (`none`).  The fuel only bounds the
number of loop iterations; every match advances the cursor, so
`body.length` iterations always suffice. -/
def encodeGo (rev : List (List Nat)) (maxLen : Nat) : Nat → List Nat → Option (List Nat)
  | _, [] => some []
  | 0, _ :: _ => none
  | fuel + 1, suffix =>
    match tryLen rev suffix (min (maxLen + 1) suffix.length) with
    | none => none
    | some (i, l) =>
      match encodeGo rev maxLen fuel (suffix.drop l) with
      | none => none
      | some rest => some (i :: rest)

def compress_encoded_body (body : List Nat) (maxItemLen : Nat)
    (rev : List (List Nat)) : Option (List Nat) :=
  encodeGo rev maxItemLen body.length body

def dedupFirstGo (seen : List Nat) : List Nat → List Nat
  | [] => []
  | x :: rest =>
    if seen.contains x then dedupFirstGo seen rest
    else x :: dedupFirstGo (seen ++ [x]) rest

/-- The distinct members of a list, first occurrences first.  (The Python
code iterates a `set` of small ints here; its iteration order is an
implementation detail that only permutes the compacted dictionary, so one
concrete order is fixed for the embedding.) -/
def dedupFirst (l : List Nat) : List Nat :=
  dedupFirstGo [] l

def insertLenAsc (rev : List (List Nat)) (x : Nat) : List Nat → List Nat
  | [] => [x]
  | y :: rest =>
    if (rev.getD y []).length ≤ (rev.getD x []).length then y :: insertLenAsc rev x rest
    else x :: y :: rest

/-- `used_indicies.sort(key=lambda v: len(lookup[v]))`: stable ascending
sort by entry length. -/
def sortLenAsc (rev : List (List Nat)) (l : List Nat) : List Nat :=
  l.foldl (fun acc x => insertLenAsc rev x acc) []

def posOf : List Nat → Nat → Nat
  | [], _ => 0
  | y :: rest, x => if y = x then 0 else posOf rest x + 1

/-- `compress_compacted_body_lookup`: keep only the used entries, sorted
by ascending length, renumber them densely from 0 and rewrite the body
through the old-to-new map.  An index outside the dictionary would be a
Python `KeyError` (`none`). -/
def compress_compacted_body_lookup (encoded : List Nat) (rev : List (List Nat)) :
    Option (List Nat × List (List Nat)) :=
  if encoded.all (fun i => i < rev.length) then
    let used := sortLenAsc rev (dedupFirst encoded)
    some (encoded.map (fun i => posOf used i), used.map (fun i => rev.getD i []))
  else none

/-- The grouping loop of `mk_compress_header`: split the index-ordered
entries into runs of equal length, at most 15 entries per group. -/
def groupGo (cur : List (List Nat)) (prevLen : Nat) :
    List (List Nat) → List (List (List Nat))
  | [] => [cur]
  | v :: rest =>
    if v.length ≠ prevLen then cur :: groupGo [v] v.length rest
    else if 15 ≤ cur.length then cur :: groupGo [v] prevLen rest
    else groupGo (cur ++ [v]) prevLen rest

def mkGroups : List (List Nat) → List (List (List Nat))
  | [] => []
  | e :: rest => groupGo [e] e.length rest

/-- One byte `((item_len - 1) << 4) | item_count` per group, then the
group's raw entries; a single zero byte terminates. -/
def headerOfGroups (gs : List (List (List Nat))) : List Nat :=
  (gs.map (fun g => (((g.headD []).length - 1) * 16 + g.length) :: g.flatten)).flatten
    ++ [0]

/-- `mk_compress_header`; its asserts (nonempty dictionary, entry lengths
in 1..16 — each group is length-uniform, so checking entries is checking
group heads) model as `none`. -/
def mk_compress_header (rev : List (List Nat)) : Option (List Nat) :=
  if rev = [] then none
  else if rev.any (fun e => e.length = 0 ∨ 16 < e.length) then none
  else some (headerOfGroups (mkGroups rev))

/-- The 12-bit packing loop of `mk_encoded_body`, with the odd/remainder
state; the end-of-stream sentinel `tableSize` is appended when the input
runs out. -/
def packGo (tableSize : Nat) : Bool → Nat → List Nat → List Nat
  | false, _, [] => [(tableSize >>> 4) &&& 255, (tableSize <<< 4) &&& 240]
  | true, rem, [] => [rem ||| ((tableSize >>> 8) &&& 15), tableSize &&& 255]
  | false, _, idx :: rest =>
    ((idx >>> 4) &&& 255) :: packGo tableSize true ((idx <<< 4) &&& 240) rest
  | true, rem, idx :: rest =>
    (rem ||| ((idx >>> 8) &&& 15)) :: (idx &&& 255) :: packGo tableSize false 0 rest

def mk_encoded_body (encoded : List Nat) (tableSize : Nat) : List Nat :=
  packGo tableSize false 0 encoded

/-- `compress`: version-2 header chunk, dictionary header, packed body. -/
def compress (body : List Nat) : Option (List Nat) :=
  match compress_dictionary_creation body with
  | none => none
  | some (maxLen, rev) =>
    match compress_encoded_body body maxLen rev with
    | none => none
    | some encoded =>
      match compress_compacted_body_lookup encoded rev with
      | none => none
      | some (recoded, rev2) =>
        match mk_block_header 2 with
        | none => none
        | some hdr =>
          match mk_compress_header rev2 with
          | none => none
          | some chdr => some (hdr ++ chdr ++ mk_encoded_body recoded rev2.length)

/-! ## The decoder described by the specification

Modelled from the spec: the extractor itself lives outside this
repository; the functions below implement exactly the decoding procedure
the round-trip claim describes — read the dictionary from the
variable-length header, then scan 12-bit big-endian codewords,
substituting the dictionary entry for each, stopping at the sentinel
codeword whose value equals the final dictionary length. -/

def readEntries : Nat → Nat → List Nat → Option (List (List Nat) × List Nat)
  | 0, _, s => some ([], s)
  | n + 1, len, s =>
    if s.length < len then none
    else
      match readEntries n len (s.drop len) with
      | none => none
      | some (es, r) => some (s.take len :: es, r)

/-- Read dictionary groups until the zero terminator byte: each group
byte holds `item_len - 1` in its high nybble and `item_count` in its low
nybble, followed by `item_count` raw entries of `item_len` bytes.  Each
recursion step consumes at least the group byte, so fuel equal to the
byte count always suffices. -/
def parseDictHeaderF : Nat → List Nat → Option (List (List Nat) × List Nat)
  | _, [] => none
  | 0, _ :: _ => none
  | fuel + 1, b :: rest =>
    if b = 0 then some ([], rest)
    else
      match readEntries (b % 16) (b / 16 + 1) rest with
      | none => none
      | some (es, rest2) =>
        match parseDictHeaderF fuel rest2 with
        | none => none
        | some (es2, tail) => some (es ++ es2, tail)

def parseDictHeader (l : List Nat) : Option (List (List Nat) × List Nat) :=
  parseDictHeaderF l.length l

/-- Scan 12-bit big-endian codewords until the sentinel. -/
def decodeBody (sentinel : Nat) : List Nat → Option (List Nat)
  | b0 :: b1 :: rest =>
    if (b0 <<< 4) ||| (b1 >>> 4) = sentinel then some []
    else
      match rest with
      | [] => none
      | b2 :: rest2 =>
        if ((b1 &&& 15) <<< 8) ||| b2 = sentinel then
          some [(b0 <<< 4) ||| (b1 >>> 4)]
        else
          match decodeBody sentinel rest2 with
          | none => none
          | some cs =>
            some (((b0 <<< 4) ||| (b1 >>> 4)) :: (((b1 &&& 15) <<< 8) ||| b2) :: cs)
  | _ => none

def substituteEntries (entries : List (List Nat)) : List Nat → Option (List (List Nat))
  | [] => some []
  | i :: rest =>
    match entries[i]? with
    | none => none
    | some e =>
      match substituteEntries entries rest with
      | none => none
      | some es => some (e :: es)

/-- Decode a compressed stream: skip the 7-byte version-2 header chunk,
read the dictionary, decode the codewords up to the sentinel (the final
dictionary length) and concatenate the dictionary entries they name. -/
def decompress (stream : List Nat) : Option (List Nat) :=
  match stream with
  | _ :: _ :: _ :: _ :: _ :: _ :: _ :: rest =>
    match parseDictHeader rest with
    | none => none
    | some (entries, body) =>
      match decodeBody entries.length body with
      | none => none
      | some codes =>
        match substituteEntries entries codes with
        | none => none
        | some parts => some parts.flatten
  | _ => none

/-! ## Claim-side predicates and fixtures -/

/-- An `OS` for concrete runs that involve no host files. -/
def osEmpty : OS :=
  ⟨fun _ => false, fun _ => none, id, fun _ => [], fun a b => a ++ b, id⟩

/-- Modelled from the claim for C4: a variant of `mk_block_string` whose
UTF-16 payload stores each character as two bytes in big-endian order, as
the specification describes.  It exists only to be compared with the
embedding of the source function. -/
def mk_block_string_be (index : Nat) (text : Str) (needs_home_replacement : Bool) :
    Option (List Nat) :=
  if text.all (fun c => c.toNat < 128) then do
    let r ← mk_ref index
    let n ← mk_uint16 text.length
    mk_chunk (if needs_home_replacement then BLOCK_ASCII_REPLACED_HOME else BLOCK_ASCII)
      (r ++ n ++ text.map Char.toNat)
  else if text.all (fun c => c.toNat < 65536) then do
    let r ← mk_ref index
    let n ← mk_uint16 text.length
    mk_chunk (if needs_home_replacement then BLOCK_UTF16_REPLACED_HOME else BLOCK_UTF16)
      (r ++ n ++ text.flatMap (fun c => [c.toNat / 256, c.toNat % 256]))
  else none

/-- The number of `\n`-separated lines of a string (`len(s.split("\n"))`). -/
def nlLineCount (s : Str) : Nat :=
  s.count '\n' + 1

/-- Is a parent path one of the roots named by the folder-ordering claim
(`"/"`, `"~"`, or empty)? -/
def isRootPath (p : Str) : Bool :=
  p = [] || p = "/".toList || p = "~".toList

/-- The folder-ordering property exactly as claimed: every folder chunk's
parent path is a root or appears as an earlier folder chunk's path. -/
def parentsOkClaimGo (seen : List Str) : List Str → Bool
  | [] => true
  | p :: rest =>
    (isRootPath (splitPath p).1 || seen.contains (splitPath p).1) &&
      parentsOkClaimGo (seen ++ [p]) rest

def parentsOkClaim (paths : List Str) : Bool :=
  parentsOkClaimGo [] paths

/-- The amended folder-ordering property: the parent may also be a
single-segment relative name (one containing no `/`), which `add_folder`
deliberately ignores. -/
def parentsOkAmendedGo (seen : List Str) : List Str → Bool
  | [] => true
  | p :: rest =>
    (isRootPath (splitPath p).1 || !(splitPath p).1.contains '/' ||
        seen.contains (splitPath p).1) &&
      parentsOkAmendedGo (seen ++ [p]) rest

def parentsOkAmended (paths : List Str) : Bool :=
  parentsOkAmendedGo [] paths

/-- The assembler states reachable through the public manifest API. -/
inductive Reachable (os : OS) : Blocks → Prop where
  | init : Reachable os Blocks.init
  | add_folder {b b' p} : Reachable os b →
      Blocks.add_folder b p = some b' → Reachable os b'
  | add_local_text_file {b g l} : Reachable os b →
      Reachable os (Blocks.add_local_text_file os b g l)
  | add_local_source_file {b g l} : Reachable os b →
      Reachable os (Blocks.add_local_source_file os b g l)
  | add_contents_file {b g c} : Reachable os b →
      Reachable os (Blocks.add_contents_file b g c)
  | add_test_file {b n l} : Reachable os b →
      Reachable os (Blocks.add_test_file os b n l)
  | add_build {b b' s t} : Reachable os b →
      Blocks.add_build b s t = some b' → Reachable os b'
  | add_user {b b' u p} : Reachable os b →
      Blocks.add_user b u p = some b' → Reachable os b'
  | add_group {b b' u g} : Reachable os b →
      Blocks.add_group b u g = some b' → Reachable os b'
  | add_rm_user {b b' u h} : Reachable os b →
      Blocks.add_rm_user b u h = some b' → Reachable os b'
  | add_rm_group {b b' u g} : Reachable os b →
      Blocks.add_rm_group b u g = some b' → Reachable os b'
  | add_chmod {b b' f p r} : Reachable os b →
      Blocks.add_chmod b f p r = some b' → Reachable os b'
  | add_chown {b b' f u r} : Reachable os b →
      Blocks.add_chown b f u r = some b' → Reachable os b'
  | add_chgroup {b b' f g r} : Reachable os b →
      Blocks.add_chgroup b f g r = some b' → Reachable os b'
  | add_launch {b b' args} : Reachable os b →
      Blocks.add_launch b args = some b' → Reachable os b'
  | add_copy {b b' s t} : Reachable os b →
      Blocks.add_copy b s t = some b' → Reachable os b'
  | add_move {b b' s t} : Reachable os b →
      Blocks.add_move b s t = some b' → Reachable os b'
  | add_delete {b b' p} : Reachable os b →
      Blocks.add_delete b p = some b' → Reachable os b'

/-- Fixture for C3: two manifest `file` entries claiming `/a`. -/
def c3Blocks : Blocks :=
  (Blocks.init.add_contents_file ("/a".toList) ("x".toList)).add_contents_file
    ("/a".toList) ("y".toList)

/-- Fixture for C5: the parsed map of
`{"type":"exec","cmd":"/bin/sh","arguments":["-c","echo hi"]}`. -/
def c5LaunchData : List (Str × PyVal) :=
  [("type".toList, PyVal.pstr ("exec".toList)),
   ("cmd".toList, PyVal.pstr ("/bin/sh".toList)),
   ("arguments".toList,
     PyVal.plist [PyVal.pstr ("-c".toList), PyVal.pstr ("echo hi".toList)])]

/-- Fixture for C7: a stored source file whose contents are the single
line `x`. -/
def c7FileManager : FileManager :=
  ⟨[⟨0, some ("f.src".toList), some ("x".toList), true, true, none, none⟩], 1⟩

/-- Fixture for C8's counterexample: the assembler after
`add_folder("a/b")`. -/
def c8CounterBlocks : Blocks :=
  (Blocks.init.add_folder ("a/b".toList)).getD Blocks.init

/-- Fixture for C8's witness: the assembler after `add_folder("~/s")`. -/
def c8WitnessBlocks : Blocks :=
  (Blocks.init.add_folder ("~/s".toList)).getD Blocks.init

/-- `okSlashes l` holds when `l` has no two adjacent slashes (the
invariant of `_normalize`'s output). -/
def okSlashes : Str → Bool
  | a :: b :: rest => (!(a = '/' && b = '/')) && okSlashes (b :: rest)
  | _ => true

/-- One folder entry's key is well formed relative to a set of recorded
keys: it splits into a parent and a non-empty final name, and the parent
is a root, a single-segment relative name (no `/`), or itself recorded. -/
def folderKeyOk (keys : List Str) (p : Str) : Prop :=
  p = (splitPath p).1 ++ '/' :: (splitPath p).2 ∧
  (isRootPath (splitPath p).1 = true ∨ (splitPath p).1.contains '/' = false ∨
    (splitPath p).1 ∈ keys)

/-- The invariant `add_folder` maintains on the assembler's folder list. -/
def FoldersInv (fs : List (Str × List Nat)) : Prop :=
  ∀ pr ∈ fs, folderKeyOk (fs.map Prod.fst) pr.1

/-! # Theorems -/

/-- Claim C2: the claim says `mk_block_chgroup` emits a chunk of kind 26
(`BLOCK_CHGROUP`).  Evaluating the embedded source function at the inputs
`file_name_index = 3`, `group_index = 4`, `recursive = true` shows it
emits kind 25 (`BLOCK_CHOWN`) instead: the code passes the wrong tag
constant, contradicting its own docstring and constant naming. -/
theorem mk_block_chgroup_emits_chown_tag :
    mk_block_chgroup 3 4 true = some (BLOCK_CHOWN :: [0, 5, 0, 3, 0, 4, 1]) ∧
    BLOCK_CHOWN ≠ BLOCK_CHGROUP :=
  ⟨rfl, by decide⟩

/-- Claim C3: the claim says a duplicate `requested_game_path` passed to
`add_contents_file` records a `DuplicateTarget` error and makes
`assemble()` return no bytes.  Evaluating the embedding at two file
entries for `/a` shows the opposite: `_setup_problems` stays `false`
(`add_text_contents` returns `False`, but the caller compares the result
against `None`) and `assemble()` returns a byte stream containing the
first file only. -/
theorem duplicate_contents_file_error_not_recorded :
    c3Blocks.setupProblems = false ∧
    Blocks.assemble osEmpty 10 c3Blocks =
      some (some [0, 0, 4, 0, 1, 0, 0, 1, 0, 4, 0, 0, 0, 0, 1, 0, 5, 0, 1, 0, 1, 97,
        1, 0, 5, 0, 2, 0, 1, 120, 21, 0, 6, 0, 0, 0, 1, 0, 2]) :=
  ⟨rfl, by decide⟩

/-- Claim C5: the claim says the manifest entry
`{"type":"launch","cmd":"/bin/sh","arguments":["-c","echo hi"]}` produces
a launch chunk with three argument references.  Evaluating the embedding
shows (a) `"launch"` is not among the dispatcher's block types at all,
and (b) even under the `exec`/`run` spelling, `parse_launch_block`
rejects every list-valued `arguments` (its `isinstance` check accepts
only tuples and strings after converting strings to lists), returning
`False` and leaving the assembler untouched, so no launch chunk is ever
emitted for it. -/
theorem parse_launch_block_rejects_list_arguments :
    parse_launch_block Blocks.init c5LaunchData = some (false, Blocks.init) ∧
    ¬ ("launch".toList ∈ BLOCK_TYPE_KEYS) :=
  ⟨rfl, by decide⟩

/-- Claim C6: the claim says `_strip_trailing_comment` leaves a line
unchanged when every `//` lies inside a string literal.  On the line
`a/ "x//y"` the only `//` is inside the string, yet the scanner's
slash-state is absorbing (a lone `/` outside a string puts it in state 2
forever), so the line is cut at the `//` inside the string. -/
theorem strip_trailing_comment_cuts_inside_string :
    strip_trailing_comment ("a/ \"x//y\"".toList) = ("a/ \"".toList) ∧
    ("a/ \"".toList : Str) ≠ ("a/ \"x//y\"".toList) :=
  ⟨rfl, by decide⟩

/-- Claim C7: the claim says `_clean_source` preserves the number of
`\n`-separated lines.  Evaluating the embedding on a source file whose
content is the single line `x` (which has no imports, so every import
trivially resolves) shows the rewritten content is `"\nx"` — the loop
prepends `"\n"` before every line including the first — which has 2
newline-separated lines where the original has 1. -/
theorem clean_source_prepends_newline :
    FileManager.clean_source osEmpty c7FileManager 0 [] =
      some (⟨[⟨0, some ("f.src".toList), some ("\nx".toList), true, true, none, none⟩], 1⟩,
        [], true) ∧
    nlLineCount ("\nx".toList) = 2 ∧
    nlLineCount ("x".toList) = 1 :=
  ⟨rfl, rfl, rfl⟩

/-- Claim C10: `mk_chunk` writes the payload length as a big-endian
uint16 and fails (the assert in `mk_uint16`) on any payload longer than
65535 bytes, so every chunk it emits declares exactly its payload's
length. -/
theorem mk_chunk_payload_bounded (chunk_id : Nat) (data : List Nat)
    (hid : chunk_id ≤ 255) :
    (data.length ≤ 65535 →
      mk_chunk chunk_id data =
        some (chunk_id :: data.length / 256 :: data.length % 256 :: data)) ∧
    (65535 < data.length → mk_chunk chunk_id data = none) := by
  refine ⟨fun h => ?_, fun h => ?_⟩
  · simp [mk_chunk, mk_uint16, hid, h]
  · simp [mk_chunk, mk_uint16, hid, Nat.not_le.mpr h]

theorem mk_chunk_payload_bounded_witness :
    mk_chunk 21 [9, 9, 9] = some [21, 0, 3, 9, 9, 9] :=
  (mk_chunk_payload_bounded 21 [9, 9, 9] (by decide)).1 (by decide)

/-! ### C4: `mk_block_string` and UTF-16 byte order -/

theorem flatMap_pair_length (text : Str) (f g : Char → Nat) :
    (text.flatMap (fun c => [f c, g c])).length = 2 * text.length := by
  induction text with
  | nil => rfl
  | cons c rest ih => simp [List.flatMap_cons, ih]; omega

theorem flatMap_utf16_bmp (text : Str) (h : ∀ c ∈ text, c.toNat < 65536) :
    text.flatMap utf16leUnits =
      text.flatMap (fun c => [c.toNat % 256, c.toNat / 256]) := by
  induction text with
  | nil => rfl
  | cons c rest ih =>
    have hc := h c (by simp)
    simp only [List.flatMap_cons]
    rw [ih (fun d hd => h d (by simp [hd]))]
    simp [utf16leUnits, hc]

theorem utf16Pairs_pairs (text : Str) (h : ∀ c ∈ text, c.toNat < 65536) :
    utf16Pairs (text.flatMap (fun c => [c.toNat % 256, c.toNat / 256])) =
      some (text.flatMap (fun c => [c.toNat % 256, c.toNat / 256])) := by
  induction text with
  | nil => rfl
  | cons c rest ih =>
    have hc := h c (by simp)
    have hlo : c.toNat % 256 ≤ 255 := by omega
    have hhi : c.toNat / 256 ≤ 255 := by omega
    simp only [List.flatMap_cons, List.cons_append, List.nil_append]
    show utf16Pairs (c.toNat % 256 :: c.toNat / 256 :: _) = _
    rw [utf16Pairs]
    rw [ih (fun d hd => h d (by simp [hd]))]
    have hval : c.toNat % 256 * 256 + c.toNat / 256 ≤ 65535 := by omega
    simp only [mk_uint16, if_pos hval, Option.bind_eq_bind, Option.some_bind]
    have h1 : (c.toNat % 256 * 256 + c.toNat / 256) / 256 = c.toNat % 256 := by omega
    have h2 : (c.toNat % 256 * 256 + c.toNat / 256) % 256 = c.toNat / 256 := by omega
    simp [h1, h2]

theorem flatMap_utf16_ge (text : Str) :
    2 * text.length ≤ (text.flatMap utf16leUnits).length := by
  induction text with
  | nil => simp
  | cons c rest ih =>
    have hlen2 : 2 ≤ (utf16leUnits c).length := by
      by_cases hc : c.toNat < 65536 <;> simp [utf16leUnits, hc]
    simp only [List.flatMap_cons, List.length_append, List.length_cons]
    omega

theorem flatMap_utf16_long (text : Str) (h : ∃ c ∈ text, 65536 ≤ c.toNat) :
    2 * text.length < (text.flatMap utf16leUnits).length := by
  induction text with
  | nil => simp at h
  | cons c rest ih =>
    have hlen2 : 2 ≤ (utf16leUnits c).length := by
      by_cases hc : c.toNat < 65536 <;> simp [utf16leUnits, hc]
    simp only [List.flatMap_cons, List.length_append, List.length_cons]
    rcases h with ⟨d, hd, hge⟩
    rcases List.mem_cons.mp hd with rfl | hdrest
    · have h4 : (utf16leUnits d).length = 4 := by
        have hnot : ¬ d.toNat < 65536 := by omega
        simp [utf16leUnits, hnot]
      have hrest := flatMap_utf16_ge rest
      omega
    · have := ih ⟨d, hdrest, hge⟩
      omega

/-- Claim C4, counterexample: at the single-character BMP string `U+0100`
the embedded source function and the claim's big-endian description
disagree (the code stores the character's two bytes in little-endian
order). -/
theorem mk_block_string_not_big_endian :
    mk_block_string 0 [Char.ofNat 256] false ≠ mk_block_string_be 0 [Char.ofNat 256] false := by
  decide

/-- Claim C4 (amended): for a string of BMP characters that is not all
ASCII, `mk_block_string` emits a UTF-16 chunk of kind 2 (or 5 when
home-rewritten) whose payload stores each character's two bytes in
LITTLE-endian order (low byte first); and a string containing any
character above U+FFFF makes it fail instead of emitting a chunk. -/
theorem mk_block_string_utf16_le (index : Nat) (text : Str) (hr : Bool)
    (hidx : index ≤ 65535) (hlen : 4 + 2 * text.length ≤ 65535) :
    ((∃ c ∈ text, 128 ≤ c.toNat) → (∀ c ∈ text, c.toNat < 65536) →
      mk_block_string index text hr =
        some ((if hr then BLOCK_UTF16_REPLACED_HOME else BLOCK_UTF16) ::
          (4 + 2 * text.length) / 256 :: (4 + 2 * text.length) % 256 ::
          index / 256 :: index % 256 :: text.length / 256 :: text.length % 256 ::
          text.flatMap (fun c => [c.toNat % 256, c.toNat / 256]))) ∧
    ((∃ c ∈ text, 65536 ≤ c.toNat) → mk_block_string index text hr = none) := by
  constructor
  · intro hex hbmp
    have hall : text.all (fun c => c.toNat < 128) = false := by
      rcases hex with ⟨c, hc, hge⟩
      cases hall : text.all (fun c => decide (c.toNat < 128)) with
      | false => rfl
      | true =>
        have := List.all_eq_true.mp hall c hc
        simp at this
        omega
    rw [mk_block_string]
    simp only [hall, Bool.false_eq_true, if_false]
    rw [flatMap_utf16_bmp text hbmp]
    rw [flatMap_pair_length]
    simp only [if_pos rfl]
    rw [utf16Pairs_pairs text hbmp]
    have hlen16 : text.length ≤ 65535 := by omega
    have hC := flatMap_pair_length text (fun c => c.toNat % 256) (fun c => c.toNat / 256)
    have hplen : ([index / 256, index % 256] ++ [text.length / 256, text.length % 256] ++
        text.flatMap (fun c => [c.toNat % 256, c.toNat / 256])).length = 4 + 2 * text.length := by
      simp only [List.length_append, List.length_cons, List.length_nil, hC]
    have hkind : (if hr then BLOCK_UTF16_REPLACED_HOME else BLOCK_UTF16) ≤ 255 := by
      cases hr <;> simp [BLOCK_UTF16, BLOCK_UTF16_REPLACED_HOME]
    simp only [mk_ref, mk_uint16, if_pos hidx, if_pos hlen16, Option.bind_eq_bind,
      Option.some_bind, mk_chunk, if_pos hkind, hplen, if_pos hlen]
    simp
  · intro hex
    have hall : text.all (fun c => c.toNat < 128) = false := by
      rcases hex with ⟨c, hc, hge⟩
      cases hall : text.all (fun c => decide (c.toNat < 128)) with
      | false => rfl
      | true =>
        have := List.all_eq_true.mp hall c hc
        simp at this
        omega
    have := flatMap_utf16_long text hex
    have hne : (text.flatMap utf16leUnits).length ≠ 2 * text.length := by omega
    simp only [mk_block_string, hall, Bool.false_eq_true, if_false]
    rw [if_neg hne]

theorem mk_block_string_utf16_le_witness :
    mk_block_string 0 [Char.ofNat 256] false =
      some [BLOCK_UTF16, 0, 6, 0, 0, 0, 1, 0, 1] ∧
    mk_block_string 0 [Char.ofNat 65536] false = none := by
  constructor
  · have h := (mk_block_string_utf16_le 0 [Char.ofNat 256] false (by decide) (by decide)).1
      ⟨Char.ofNat 256, by decide, by decide⟩ (by decide)
    rw [h]
    decide
  · exact (mk_block_string_utf16_le 0 [Char.ofNat 65536] false (by decide) (by decide)).2
      ⟨Char.ofNat 65536, by decide, by decide⟩

/-! ### Generic facts about the insertion sorts and the dedup pass -/

theorem foldl_insert_perm {α : Type} (ins : α → List α → List α)
    (h : ∀ x l, (ins x l).Perm (x :: l)) :
    ∀ (l acc : List α), (l.foldl (fun a x => ins x a) acc).Perm (l ++ acc) := by
  intro l
  induction l with
  | nil => intro acc; simp
  | cons x rest ih =>
    intro acc
    simp only [List.foldl_cons, List.cons_append]
    have h1 := ih (ins x acc)
    have h2 : (rest ++ ins x acc).Perm (rest ++ x :: acc) :=
      List.Perm.append_left rest (h x acc)
    have h3 : (rest ++ x :: acc).Perm (x :: (rest ++ acc)) := List.perm_middle
    exact (h1.trans h2).trans h3

theorem insertLenAsc_perm (rev : List (List Nat)) (x : Nat) (l : List Nat) :
    (insertLenAsc rev x l).Perm (x :: l) := by
  induction l with
  | nil => rfl
  | cons y rest ih =>
    rw [insertLenAsc]
    split
    · exact ((ih.cons y).trans (List.Perm.swap x y rest)).symm.symm
    · rfl

theorem sortLenAsc_perm (rev : List (List Nat)) (l : List Nat) :
    (sortLenAsc rev l).Perm l := by
  have := foldl_insert_perm (insertLenAsc rev) (insertLenAsc_perm rev) l []
  simpa [sortLenAsc] using this

theorem mem_dedupFirstGo_of (seen l : List Nat) :
    ∀ x ∈ dedupFirstGo seen l, x ∈ l := by
  induction l generalizing seen with
  | nil => simp [dedupFirstGo]
  | cons y rest ih =>
    intro x hx
    rw [dedupFirstGo] at hx
    split at hx
    · exact List.mem_cons_of_mem y (ih seen x hx)
    · rcases List.mem_cons.mp hx with rfl | hx2
      · exact List.mem_cons_self x rest
      · exact List.mem_cons_of_mem y (ih _ x hx2)

theorem mem_dedupFirstGo (seen l : List Nat) :
    ∀ x ∈ l, x ∈ seen ∨ x ∈ dedupFirstGo seen l := by
  induction l generalizing seen with
  | nil => simp
  | cons y rest ih =>
    intro x hx
    rw [dedupFirstGo]
    rcases List.mem_cons.mp hx with rfl | hx2
    · split
      · left; exact List.mem_of_elem_eq_true (by assumption)
      · right; exact List.mem_cons_self x _
    · split
      · exact ih seen x hx2
      · rcases ih (seen ++ [y]) x hx2 with hs | hd
        · rcases List.mem_append.mp hs with hs1 | hs1
          · left; exact hs1
          · right; simp at hs1; simp [hs1]
        · right; exact List.mem_cons_of_mem y hd

theorem dedupFirstGo_nodup (seen l : List Nat) :
    (dedupFirstGo seen l).Nodup ∧ ∀ x ∈ dedupFirstGo seen l, x ∉ seen := by
  induction l generalizing seen with
  | nil => simp [dedupFirstGo]
  | cons y rest ih =>
    rw [dedupFirstGo]
    split
    · exact ih seen
    · rename_i hy
      have hns : y ∉ seen := fun hmem => hy (List.elem_eq_true_of_mem hmem)
      obtain ⟨hnd, hnot⟩ := ih (seen ++ [y])
      refine ⟨List.nodup_cons.mpr ⟨fun hmem => ?_, hnd⟩, ?_⟩
      · exact hnot y hmem (by simp)
      · intro x hx
        rcases List.mem_cons.mp hx with rfl | hx2
        · exact hns
        · intro hxs
          exact hnot x hx2 (by simp [hxs])

theorem posOf_spec (l : List Nat) (x : Nat) (h : x ∈ l) :
    posOf l x < l.length ∧ l[posOf l x]? = some x := by
  induction l with
  | nil => simp at h
  | cons y rest ih =>
    rw [posOf]
    split
    · rename_i heq
      subst heq
      simp
    · rename_i hne
      have hxr : x ∈ rest := by
        rcases List.mem_cons.mp h with rfl | hx2
        · exact absurd rfl hne
        · exact hx2
      obtain ⟨h1, h2⟩ := ih hxr
      constructor
      · simp; omega
      · simpa using h2

/-- Claim C9: within the compression pipeline, after the compaction pass
every body codeword is strictly below the final dictionary size, so the
trailing sentinel (which `compress` emits as `len(reverse_lookup)`) can
never collide with a body codeword. -/
theorem compacted_codes_lt_dict_size (body : List Nat) (maxLen : Nat)
    (rev : List (List Nat)) (encoded recoded : List Nat)
    (translated : List (List Nat))
    (h1 : compress_dictionary_creation body = some (maxLen, rev))
    (h2 : compress_encoded_body body maxLen rev = some encoded)
    (h3 : compress_compacted_body_lookup encoded rev = some (recoded, translated)) :
    (∀ i ∈ recoded, i < translated.length) ∧ translated.length ∉ recoded := by
  rw [compress_compacted_body_lookup] at h3
  split at h3
  · rename_i hall
    have hpair := Option.some.inj h3
    have hrec : recoded =
        encoded.map (fun i => posOf (sortLenAsc rev (dedupFirst encoded)) i) :=
      (congrArg Prod.fst hpair).symm
    have htr : translated =
        (sortLenAsc rev (dedupFirst encoded)).map (fun i => rev.getD i []) :=
      (congrArg Prod.snd hpair).symm
    have hmain : ∀ i ∈ recoded, i < translated.length := by
      intro i hi
      rw [hrec] at hi
      rcases List.mem_map.mp hi with ⟨j, hj, rfl⟩
      have hjd : j ∈ dedupFirst encoded := by
        rcases mem_dedupFirstGo [] encoded j hj with hs | hd
        · simp at hs
        · exact hd
      have hju : j ∈ sortLenAsc rev (dedupFirst encoded) :=
        ((sortLenAsc_perm rev (dedupFirst encoded)).mem_iff).mpr hjd
      have := (posOf_spec _ j hju).1
      rw [htr, List.length_map]
      exact this
    exact ⟨hmain, fun hmem => absurd (hmain _ hmem) (lt_irrefl _)⟩
  · cases h3

theorem compacted_codes_lt_dict_size_witness :
    (∀ i ∈ [0], i < List.length [[7]]) ∧ List.length [[7]] ∉ [0] :=
  compacted_codes_lt_dict_size [7] 1 [[7]] [0] [0] [[7]] rfl rfl rfl

/-! ### C1: bit-level facts about the 12-bit packing -/

theorem nat_and_255 (x : Nat) : x &&& 255 = x % 256 := by
  have h := Nat.and_pow_two_sub_one_eq_mod x 8
  norm_num at h
  exact h

theorem nat_and_15 (x : Nat) : x &&& 15 = x % 16 := by
  have h := Nat.and_pow_two_sub_one_eq_mod x 4
  norm_num at h
  exact h

theorem nat_shiftr_4 (x : Nat) : x >>> 4 = x / 16 := by
  rw [Nat.shiftRight_eq_div_pow]

theorem nat_shiftr_8 (x : Nat) : x >>> 8 = x / 256 := by
  rw [Nat.shiftRight_eq_div_pow]

theorem nat_shiftl_4 (x : Nat) : x <<< 4 = x * 16 := by
  rw [Nat.shiftLeft_eq]

theorem nat_shiftl_8 (x : Nat) : x <<< 8 = x * 256 := by
  rw [Nat.shiftLeft_eq]

theorem or_mul_16 (a b : Nat) (hb : b < 16) : (a * 16) ||| b = a * 16 + b := by
  have h16 : (16 : Nat) = 2 ^ 4 := by norm_num
  have h := Nat.mul_add_lt_is_or (i := 4) (h16 ▸ hb) a
  rw [← h16, Nat.mul_comm 16 a] at h
  omega

theorem or_mul_256 (a b : Nat) (hb : b < 256) : (a * 256) ||| b = a * 256 + b := by
  have h256 : (256 : Nat) = 2 ^ 8 := by norm_num
  have h := Nat.mul_add_lt_is_or (i := 8) (h256 ▸ hb) a
  rw [← h256, Nat.mul_comm 256 a] at h
  omega

theorem and_240 (x : Nat) : (x <<< 4) &&& 240 = x % 16 * 16 := by
  rw [nat_shiftl_4]
  have h15 : (x * 16) &&& 15 = 0 := by
    rw [nat_and_15]
    omega
  have hsplit : (x * 16) &&& 255 = ((x * 16) &&& 240) ||| ((x * 16) &&& 15) := by
    have h240 : (240 : Nat) ||| 15 = 255 := by decide
    rw [← h240, Nat.and_or_distrib_left]
  rw [h15, Nat.or_zero] at hsplit
  rw [← hsplit, nat_and_255]
  omega

/-- Reassembling the two bytes of an even-position-final sentinel yields
the sentinel. -/
theorem repack_even (x : Nat) (hx : x < 4096) :
    (((x >>> 4) &&& 255) <<< 4) ||| (((x <<< 4) &&& 240) >>> 4) = x := by
  rw [nat_shiftr_4, nat_and_255, and_240, nat_shiftl_4, nat_shiftr_4]
  have h1 : x / 16 % 256 = x / 16 := by omega
  have h2 : x % 16 * 16 / 16 = x % 16 := by omega
  rw [h1, h2, or_mul_16 (x / 16) (x % 16) (by omega)]
  omega

/-- Reassembling the first codeword of a packed byte triple. -/
theorem repack_first (x y : Nat) (hx : x < 4096) :
    (((x >>> 4) &&& 255) <<< 4) |||
      (((((x <<< 4) &&& 240)) ||| ((y >>> 8) &&& 15)) >>> 4) = x := by
  rw [nat_shiftr_4, nat_and_255, and_240, nat_shiftr_8, nat_and_15, nat_shiftl_4,
    nat_shiftr_4]
  rw [or_mul_16 (x % 16) (y / 256 % 16) (by omega)]
  have h1 : x / 16 % 256 = x / 16 := by omega
  have h2 : (x % 16 * 16 + y / 256 % 16) / 16 = x % 16 := by omega
  rw [h1, h2, or_mul_16 (x / 16) (x % 16) (by omega)]
  omega

/-- Reassembling the second codeword of a packed byte triple. -/
theorem repack_second (x y : Nat) (hy : y < 4096) :
    ((((((x <<< 4) &&& 240)) ||| ((y >>> 8) &&& 15)) &&& 15) <<< 8) |||
      (y &&& 255) = y := by
  rw [and_240, nat_shiftr_8, nat_and_255, nat_and_15 (y / 256)]
  rw [or_mul_16 (x % 16) (y / 256 % 16) (by omega)]
  rw [nat_and_15, nat_shiftl_8]
  have h1 : (x % 16 * 16 + y / 256 % 16) % 16 = y / 256 % 16 := by omega
  have h2 : y / 256 % 16 = y / 256 := by omega
  rw [h1, h2, or_mul_256 (y / 256) (y % 256) (by omega)]
  omega

/-- The body decoder inverts the packer: packing codewords all below a
sentinel smaller than 4096 and decoding with that sentinel recovers the
codewords. -/
theorem decode_pack (s : Nat) (hs : s < 4096) :
    ∀ (n : Nat) (codes : List Nat), codes.length ≤ n → (∀ c ∈ codes, c < s) →
      decodeBody s (packGo s false 0 codes) = some codes := by
  intro n
  induction n with
  | zero =>
    intro codes hlen h
    match codes with
    | [] =>
      rw [packGo, decodeBody]
      rw [if_pos (repack_even s hs)]
    | _ :: _ => simp at hlen
  | succ m ih =>
    intro codes hlen h
    match codes with
    | [] =>
      rw [packGo, decodeBody]
      rw [if_pos (repack_even s hs)]
    | [c] =>
      have hc := h c (by simp)
      rw [packGo, packGo, decodeBody]
      rw [repack_first c s (by omega)]
      rw [if_neg (by omega : ¬ c = s)]
      rw [repack_second c s hs]
      rw [if_pos rfl]
    | c1 :: c2 :: rest =>
      have hc1 := h c1 (by simp)
      have hc2 := h c2 (by simp)
      rw [packGo, packGo, decodeBody]
      rw [repack_first c1 c2 (by omega)]
      rw [if_neg (by omega : ¬ c1 = s)]
      rw [repack_second c1 c2 (by omega)]
      rw [if_neg (by omega : ¬ c2 = s)]
      rw [ih rest (by simp at hlen; omega) (fun c hc => h c (by simp [hc]))]

/-! ### C1: facts about the greedy encoder -/

theorem dictGet_spec (rev : List (List Nat)) (k : List Nat) :
    ∀ i, dictGet rev k = some i → i < rev.length ∧ rev[i]? = some k := by
  induction rev with
  | nil => intro i h; cases h
  | cons e rest ih =>
    intro i h
    rw [dictGet] at h
    split at h
    · rename_i he
      cases h
      subst he
      simp
    · match hr : dictGet rest k with
      | none => rw [hr] at h; cases h
      | some j =>
        rw [hr] at h
        cases h
        obtain ⟨h1, h2⟩ := ih j hr
        constructor
        · simp; omega
        · simpa using h2

theorem dictGet_isSome_of_mem (rev : List (List Nat)) (k : List Nat) (h : k ∈ rev) :
    dictGet rev k ≠ none := by
  induction rev with
  | nil => simp at h
  | cons e rest ih =>
    rw [dictGet]
    split
    · simp
    · rename_i hne
      have hk : k ∈ rest := by
        rcases List.mem_cons.mp h with rfl | h2
        · exact absurd rfl hne
        · exact h2
      intro hmap
      exact ih hk (Option.map_eq_none.mp hmap)

theorem tryLen_spec (rev : List (List Nat)) (suffix : List Nat) :
    ∀ n i l, tryLen rev suffix n = some (i, l) →
      1 ≤ l ∧ l ≤ n ∧ i < rev.length ∧ rev[i]? = some (suffix.take l) := by
  intro n
  induction n with
  | zero => intro i l h; cases h
  | succ m ih =>
    intro i l h
    rw [tryLen] at h
    cases hj : dictGet rev (suffix.take (m + 1)) with
    | some j =>
      rw [hj] at h
      obtain ⟨h1, h2⟩ := dictGet_spec rev (suffix.take (m + 1)) j hj
      cases h
      exact ⟨by omega, le_refl _, h1, h2⟩
    | none =>
      rw [hj] at h
      obtain ⟨h1, h2, h3, h4⟩ := ih i l h
      exact ⟨h1, by omega, h3, h4⟩

theorem tryLen_step_none (rev : List (List Nat)) (suffix : List Nat) (n : Nat)
    (h : tryLen rev suffix (n + 1) = none) : tryLen rev suffix n = none := by
  rw [tryLen] at h
  split at h
  · cases h
  · exact h

theorem tryLen_isSome (rev : List (List Nat)) (c : Nat) (suffix : List Nat) (n : Nat)
    (hmem : [c] ∈ rev) : tryLen rev (c :: suffix) (n + 1) ≠ none := by
  intro h
  have h1 : tryLen rev (c :: suffix) 1 = none := by
    clear hmem
    induction n with
    | zero => exact h
    | succ m ih => exact ih (tryLen_step_none rev (c :: suffix) (m + 1) h)
  rw [tryLen] at h1
  split at h1
  · cases h1
  · rename_i hget
    exact dictGet_isSome_of_mem rev [c] hmem (by simpa using hget)

theorem encodeGo_spec (rev : List (List Nat)) (maxLen : Nat) :
    ∀ (fuel : Nat) (suffix : List Nat), suffix.length ≤ fuel →
    (∀ b ∈ suffix, [b] ∈ rev) →
    ∃ codes, encodeGo rev maxLen fuel suffix = some codes ∧
      (∀ i ∈ codes, i < rev.length) ∧
      (codes.map (fun i => rev.getD i [])).flatten = suffix ∧
      (suffix ≠ [] → codes ≠ []) := by
  intro fuel
  induction fuel with
  | zero =>
    intro suffix hlen hmem
    match suffix with
    | [] => exact ⟨[], rfl, by simp, by simp, by simp⟩
    | _ :: _ => simp at hlen
  | succ m ih =>
    intro suffix hlen hmem
    match suffix with
    | [] => exact ⟨[], rfl, by simp, by simp, by simp⟩
    | c :: rest =>
      have hctry : tryLen rev (c :: rest) (min (maxLen + 1) (c :: rest).length) ≠ none := by
        have h1 : min (maxLen + 1) (c :: rest).length =
            (min maxLen rest.length) + 1 := by
          simp [List.length_cons]
          omega
        rw [h1]
        exact tryLen_isSome rev c rest _ (hmem c (by simp))
      match htry : tryLen rev (c :: rest) (min (maxLen + 1) (c :: rest).length) with
      | none => exact absurd htry hctry
      | some (i, l) =>
        obtain ⟨hl1, hl2, hi, hget⟩ := tryLen_spec rev (c :: rest) _ i l htry
        have hlsuf : l ≤ (c :: rest).length := le_trans hl2 (by omega)
        have hdroplen : ((c :: rest).drop l).length ≤ m := by
          rw [List.length_drop]
          simp at hlen ⊢
          omega
        obtain ⟨codes, hcodes, hbound, hflat, _⟩ :=
          ih ((c :: rest).drop l) hdroplen
            (fun b hb => hmem b (List.mem_of_mem_drop hb))
        refine ⟨i :: codes, ?_, ?_, ?_, ?_⟩
        · simp only [encodeGo, htry, hcodes]
        · intro j hj
          rcases List.mem_cons.mp hj with rfl | hj2
          · exact hi
          · exact hbound j hj2
        · simp only [List.map_cons, List.flatten_cons, hflat]
          have : rev.getD i [] = (c :: rest).take l := by
            rw [List.getD_eq_getElem?_getD, hget]
            rfl
          rw [this, List.take_append_drop]
        · simp

/-! ### C1: the dictionary header round trip -/

theorem readEntries_group (L : Nat) (g : List (List Nat)) (tail : List Nat)
    (h : ∀ e ∈ g, e.length = L) :
    readEntries g.length L (g.flatten ++ tail) = some (g, tail) := by
  induction g with
  | nil => simp [readEntries]
  | cons e g' ih =>
    have he := h e (by simp)
    simp only [List.length_cons, List.flatten_cons, List.append_assoc]
    rw [readEntries]
    have hlen : ¬ ((e ++ (g'.flatten ++ tail)).length < L) := by
      rw [List.length_append]
      omega
    rw [if_neg hlen]
    have hdrop : (e ++ (g'.flatten ++ tail)).drop L = g'.flatten ++ tail := by
      rw [← he]
      exact List.drop_left _ _
    have htake : (e ++ (g'.flatten ++ tail)).take L = e := by
      rw [← he]
      exact List.take_left _ _
    rw [hdrop, ih (fun x hx => h x (by simp [hx])), htake]

/-- The well-formedness of a group list produced by `mk_compress_header`:
each group is nonempty, holds at most 15 entries, and all its entries
share one length in 1..16. -/
def GroupsWF (gs : List (List (List Nat))) : Prop :=
  ∀ g ∈ gs, g ≠ [] ∧ g.length ≤ 15 ∧
    ∃ L, 1 ≤ L ∧ L ≤ 16 ∧ ∀ e ∈ g, e.length = L

theorem headerOfGroups_cons (g : List (List Nat)) (gs : List (List (List Nat))) :
    headerOfGroups (g :: gs) =
      ((((g.headD []).length - 1) * 16 + g.length) :: g.flatten) ++ headerOfGroups gs := by
  simp [headerOfGroups]

theorem parseDictHeaderF_groups :
    ∀ (gs : List (List (List Nat))) (fuel : Nat) (tail : List Nat),
    gs.length < fuel → GroupsWF gs →
    parseDictHeaderF fuel (headerOfGroups gs ++ tail) = some (gs.flatten, tail) := by
  intro gs
  induction gs with
  | nil =>
    intro fuel tail hf _
    match fuel with
    | 0 => omega
    | fuel + 1 =>
      show parseDictHeaderF (fuel + 1) (0 :: tail) = _
      rw [parseDictHeaderF, if_pos rfl]
      simp
  | cons g gs' ih =>
    intro fuel tail hf hwf
    obtain ⟨hne, hle, L, hL1, hL16, huni⟩ := hwf g (by simp)
    match fuel with
    | 0 => omega
    | fuel + 1 =>
      rw [headerOfGroups_cons]
      match g with
      | [] => exact absurd rfl hne
      | e :: grest =>
        have hhead : ((e :: grest).headD []).length = L := huni e (by simp)
        have hcnt : (e :: grest).length ≤ 15 := hle
        have hcnt1 : 1 ≤ (e :: grest).length := by simp
        have hbyte : (L - 1) * 16 + (e :: grest).length ≠ 0 := by omega
        have hmod : ((L - 1) * 16 + (e :: grest).length) % 16 = (e :: grest).length := by
          omega
        have hdiv : ((L - 1) * 16 + (e :: grest).length) / 16 + 1 = L := by omega
        simp only [hhead, List.cons_append, List.append_assoc]
        rw [parseDictHeaderF, if_neg hbyte, hmod, hdiv]
        simp only [readEntries_group L (e :: grest) (headerOfGroups gs' ++ tail) huni,
          ih fuel tail (by simp at hf ⊢; omega) (fun g2 hg2 => hwf g2 (by simp [hg2]))]
        simp

theorem headerOfGroups_length (gs : List (List (List Nat))) :
    gs.length < (headerOfGroups gs).length := by
  induction gs with
  | nil => simp [headerOfGroups]
  | cons g gs' ih =>
    rw [headerOfGroups_cons]
    simp only [List.length_append, List.length_cons]
    omega

theorem groupGo_flatten (rest : List (List Nat)) :
    ∀ cur plen, (groupGo cur plen rest).flatten = cur ++ rest := by
  induction rest with
  | nil => intro cur plen; simp [groupGo]
  | cons v rest' ih =>
    intro cur plen
    rw [groupGo]
    split
    · simp [ih]
    · split
      · simp [ih]
      · rw [ih]
        simp

theorem group_entry_wf (g : List (List Nat)) (plen : Nat) (hne : g ≠ [])
    (hlen : g.length ≤ 15) (huni : ∀ e ∈ g, e.length = plen)
    (hb : ∀ e ∈ g, 1 ≤ e.length ∧ e.length ≤ 16) :
    g ≠ [] ∧ g.length ≤ 15 ∧ ∃ L, 1 ≤ L ∧ L ≤ 16 ∧ ∀ e ∈ g, e.length = L := by
  match g, hne with
  | e :: grest, _ =>
    have h1 := huni e (by simp)
    have h2 := hb e (by simp)
    exact ⟨by simp, hlen, plen, by omega, by omega, huni⟩

theorem groupGo_wf (rest : List (List Nat)) :
    ∀ cur plen, cur ≠ [] → cur.length ≤ 15 → (∀ e ∈ cur, e.length = plen) →
    (∀ e ∈ cur ++ rest, 1 ≤ e.length ∧ e.length ≤ 16) →
    GroupsWF (groupGo cur plen rest) := by
  induction rest with
  | nil =>
    intro cur plen hne hlen huni hbounds g hg
    rw [groupGo] at hg
    simp only [List.mem_singleton] at hg
    subst hg
    exact group_entry_wf g plen hne hlen huni
      (fun e he => hbounds e (List.mem_append.mpr (Or.inl he)))
  | cons v rest' ih =>
    intro cur plen hne hlen huni hbounds g hg
    have hboundsv : 1 ≤ v.length ∧ v.length ≤ 16 :=
      hbounds v (List.mem_append.mpr (Or.inr (by simp)))
    have hbsub : ∀ e ∈ [v] ++ rest', 1 ≤ e.length ∧ e.length ≤ 16 := by
      intro e he
      apply hbounds
      simp only [List.mem_append] at he ⊢
      rcases he with he | he
      · right; simp at he; simp [he]
      · right; simp [he]
    rw [groupGo] at hg
    split at hg
    · rcases List.mem_cons.mp hg with rfl | hg2
      · exact group_entry_wf g plen hne hlen huni
          (fun e he => hbounds e (List.mem_append.mpr (Or.inl he)))
      · exact ih [v] v.length (by simp) (by simp) (by simp) hbsub g hg2
    · split at hg
      · rcases List.mem_cons.mp hg with rfl | hg2
        · exact group_entry_wf g plen hne hlen huni
            (fun e he => hbounds e (List.mem_append.mpr (Or.inl he)))
        · refine ih [v] plen (by simp) (by simp) ?_ hbsub g hg2
          intro e he
          simp only [List.mem_singleton] at he
          subst he
          rename_i hleneq _
          omega
      · rename_i hleneq hfull
        refine ih (cur ++ [v]) plen (by simp) ?_ ?_ ?_ g hg
        · simp only [List.length_append, List.length_cons, List.length_nil]
          omega
        · intro e he
          rcases List.mem_append.mp he with he | he
          · exact huni e he
          · simp only [List.mem_singleton] at he
            subst he
            omega
        · intro e he
          apply hbounds
          rcases List.mem_append.mp he with he | he
          · rcases List.mem_append.mp he with he | he
            · exact List.mem_append.mpr (Or.inl he)
            · simp only [List.mem_singleton] at he
              subst he
              simp
          · simp [he]

/-! ### C1: facts about the histogram and the dictionary selection -/

theorem counterAdd_keys (c : List (List Nat × Nat)) (k : List Nat) :
    (counterAdd c k).map Prod.fst =
      if k ∈ c.map Prod.fst then c.map Prod.fst else c.map Prod.fst ++ [k] := by
  induction c with
  | nil => simp [counterAdd]
  | cons e rest ih =>
    match e with
    | (k', n) =>
      rw [counterAdd]
      split
      · rename_i heq
        subst heq
        simp
      · rename_i hne
        have hne2 : ¬ k' = k := hne
        simp only [List.map_cons, ih]
        by_cases hk : k ∈ rest.map Prod.fst
        · rw [if_pos hk, if_pos (by simp [hk])]
        · rw [if_neg hk, if_neg (by
            simp only [List.mem_cons]
            rintro (rfl | h)
            · exact hne2 rfl
            · exact hk h)]
          simp

theorem counterFold_keys_mono (L : List (List Nat)) :
    ∀ (init : List (List Nat × Nat)) (x : List Nat),
      x ∈ init.map Prod.fst → x ∈ (L.foldl counterAdd init).map Prod.fst := by
  induction L with
  | nil => intro init x h; simpa using h
  | cons k rest ih =>
    intro init x h
    rw [List.foldl_cons]
    apply ih
    rw [counterAdd_keys]
    split
    · exact h
    · exact List.mem_append.mpr (Or.inl h)

theorem counterFold_keys_of_mem (L : List (List Nat)) :
    ∀ (init : List (List Nat × Nat)) (x : List Nat),
      x ∈ L → x ∈ (L.foldl counterAdd init).map Prod.fst := by
  induction L with
  | nil => intro init x h; simp at h
  | cons k rest ih =>
    intro init x h
    rw [List.foldl_cons]
    rcases List.mem_cons.mp h with rfl | h2
    · apply counterFold_keys_mono
      rw [counterAdd_keys]
      split
      · assumption
      · simp
    · exact ih _ x h2

theorem counterFold_keys_sub (L : List (List Nat)) :
    ∀ (init : List (List Nat × Nat)) (x : List Nat),
      x ∈ (L.foldl counterAdd init).map Prod.fst → x ∈ init.map Prod.fst ∨ x ∈ L := by
  induction L with
  | nil => intro init x h; simp at h; simp [h]
  | cons k rest ih =>
    intro init x h
    rw [List.foldl_cons] at h
    rcases ih _ x h with h2 | h2
    · rw [counterAdd_keys] at h2
      split at h2
      · exact Or.inl h2
      · rcases List.mem_append.mp h2 with h3 | h3
        · exact Or.inl h3
        · simp at h3
          simp [h3]
    · simp [h2]

theorem counterFold_keys_nodup (L : List (List Nat)) :
    ∀ (init : List (List Nat × Nat)), (init.map Prod.fst).Nodup →
      ((L.foldl counterAdd init).map Prod.fst).Nodup := by
  induction L with
  | nil => intro init h; simpa using h
  | cons k rest ih =>
    intro init h
    rw [List.foldl_cons]
    apply ih
    rw [counterAdd_keys]
    split
    · exact h
    · rename_i hnk
      simp only [List.nodup_append, List.nodup_cons]
      refine ⟨h, by simp, ?_⟩
      intro x hx
      simp only [List.mem_singleton]
      rintro rfl
      exact hnk hx

theorem insertCountDesc_perm (x : List Nat × Nat) (l : List (List Nat × Nat)) :
    (insertCountDesc x l).Perm (x :: l) := by
  induction l with
  | nil => rfl
  | cons y rest ih =>
    rw [insertCountDesc]
    split
    · exact (ih.cons y).trans (List.Perm.swap x y rest)
    · rfl

theorem insertCountAsc_perm (x : List Nat × Nat) (l : List (List Nat × Nat)) :
    (insertCountAsc x l).Perm (x :: l) := by
  induction l with
  | nil => rfl
  | cons y rest ih =>
    rw [insertCountAsc]
    split
    · exact (ih.cons y).trans (List.Perm.swap x y rest)
    · rfl

theorem sortCountDesc_perm (l : List (List Nat × Nat)) :
    (sortCountDesc l).Perm l := by
  have := foldl_insert_perm insertCountDesc insertCountDesc_perm l []
  simpa [sortCountDesc] using this

theorem sortCountAsc_perm (l : List (List Nat × Nat)) :
    (sortCountAsc l).Perm l := by
  have := foldl_insert_perm insertCountAsc insertCountAsc_perm l []
  simpa [sortCountAsc] using this

theorem substringKeys_length (body : List Nat) (e : List Nat)
    (h : e ∈ substringKeys body) : 2 ≤ e.length ∧ e.length ≤ 15 := by
  rw [substringKeys] at h
  rcases List.mem_flatMap.mp h with ⟨count, hcount, he⟩
  rcases List.mem_map.mp he with ⟨pos, hpos, rfl⟩
  have hc : 2 ≤ count ∧ count ≤ 15 := by
    have := List.mem_range'.mp hcount
    omega
  have hp : pos < body.length + 1 - count := List.mem_range.mp hpos
  have hlen : ((body.drop pos).take count).length = count := by
    rw [List.length_take, List.length_drop]
    omega
  omega

theorem dcSingles_keys_nodup (body : List Nat) :
    ((dcSingles body).map Prod.fst).Nodup :=
  counterFold_keys_nodup _ [] (by simp)

theorem dcSingles_length_le (body : List Nat) (hbytes : ∀ x ∈ body, x < 256) :
    (dcSingles body).length ≤ 256 := by
  have hsub : ∀ k ∈ (dcSingles body).map Prod.fst,
      k ∈ (List.range 256).map (fun b => [b]) := by
    intro k hk
    rcases counterFold_keys_sub _ [] k hk with h | h
    · simp at h
    · rcases List.mem_map.mp h with ⟨b, hb, rfl⟩
      exact List.mem_map.mpr ⟨b, List.mem_range.mpr (hbytes b hb), rfl⟩
  have := (List.subperm_of_subset (dcSingles_keys_nodup body) hsub).length_le
  simpa using this

theorem dcCommon_length (body : List Nat) (hbytes : ∀ x ∈ body, x < 256) :
    (dcCommon body).length ≤ 4095 := by
  rw [dcCommon]
  rw [(sortCountAsc_perm _).length_eq]
  rw [List.length_append, List.length_take]
  rw [(sortCountDesc_perm (dcSingles body)).length_eq]
  have := dcSingles_length_le body hbytes
  omega

theorem dcCommon_mem_single (body : List Nat) (b : Nat) (hb : b ∈ body) :
    [b] ∈ (dcCommon body).map Prod.fst := by
  have h1 : [b] ∈ (dcSingles body).map Prod.fst :=
    counterFold_keys_of_mem _ [] [b] (List.mem_map.mpr ⟨b, hb, rfl⟩)
  rcases List.mem_map.mp h1 with ⟨p, hp, hfst⟩
  have h2 : p ∈ sortCountDesc (dcSingles body) :=
    (sortCountDesc_perm (dcSingles body)).mem_iff.mpr hp
  have h3 : p ∈ (sortCountDesc (dcHisto body)).take (4095 - (dcSingles body).length) ++
      sortCountDesc (dcSingles body) := List.mem_append.mpr (Or.inr h2)
  have h4 : p ∈ dcCommon body := by
    rw [dcCommon]
    exact (sortCountAsc_perm _).mem_iff.mpr h3
  exact hfst ▸ List.mem_map.mpr ⟨p, h4, rfl⟩

theorem dcCommon_entry_length (body : List Nat) (e : List Nat)
    (h : e ∈ (dcCommon body).map Prod.fst) : 1 ≤ e.length ∧ e.length ≤ 15 := by
  rcases List.mem_map.mp h with ⟨p, hp, rfl⟩
  rw [dcCommon] at hp
  have hp2 := (sortCountAsc_perm _).mem_iff.mp hp
  rcases List.mem_append.mp hp2 with hp3 | hp3
  · have hp4 : p ∈ sortCountDesc (dcHisto body) := List.mem_of_mem_take hp3
    have hp5 : p ∈ dcHisto body := (sortCountDesc_perm _).mem_iff.mp hp4
    have hp6 : p.1 ∈ (dcHisto body).map Prod.fst := List.mem_map.mpr ⟨p, hp5, rfl⟩
    rcases counterFold_keys_sub _ [] p.1 hp6 with h7 | h7
    · simp at h7
    · have := substringKeys_length body p.1 h7
      omega
  · have hp4 : p ∈ dcSingles body := (sortCountDesc_perm _).mem_iff.mp hp3
    have hp5 : p.1 ∈ (dcSingles body).map Prod.fst := List.mem_map.mpr ⟨p, hp4, rfl⟩
    rcases counterFold_keys_sub _ [] p.1 hp5 with h6 | h6
    · simp at h6
    · rcases List.mem_map.mp h6 with ⟨b, _, hb2⟩
      rw [← hb2]
      simp

theorem dictionary_creation_spec (body : List Nat) (hbytes : ∀ x ∈ body, x < 256) :
    compress_dictionary_creation body =
      some ((dcCommon body).foldl (fun m e => max m e.1.length) 0,
            (dcCommon body).map (fun e => e.1)) ∧
    ((dcCommon body).map (fun e => e.1)).length ≤ 4095 ∧
    (∀ b ∈ body, [b] ∈ (dcCommon body).map (fun e => e.1)) ∧
    (∀ e ∈ (dcCommon body).map (fun e => e.1), 1 ≤ e.length ∧ e.length ≤ 15) := by
  refine ⟨?_, ?_, ?_, ?_⟩
  · rw [compress_dictionary_creation]
    simp only [if_pos (dcCommon_length body hbytes)]
  · rw [List.length_map]
    exact dcCommon_length body hbytes
  · exact fun b hb => dcCommon_mem_single body b hb
  · exact fun e he => dcCommon_entry_length body e he

theorem substituteEntries_of_bounds (entries : List (List Nat)) :
    ∀ codes, (∀ i ∈ codes, i < entries.length) →
    substituteEntries entries codes =
      some (codes.map (fun i => entries.getD i [])) := by
  intro codes
  induction codes with
  | nil => intro _; rfl
  | cons i rest ih =>
    intro h
    have hi := h i (by simp)
    rw [substituteEntries]
    rw [List.getElem?_eq_getElem hi]
    rw [ih (fun j hj => h j (by simp [hj]))]
    simp [List.getD_eq_getElem?_getD, List.getElem?_eq_getElem hi]

theorem getD_mem_of_lt (l : List (List Nat)) (i : Nat) (h : i < l.length) :
    l.getD i [] ∈ l := by
  rw [List.getD_eq_getElem?_getD, List.getElem?_eq_getElem h]
  exact List.getElem_mem h

/-- Claim C1: the compressor is lossless.  For every non-empty byte
string, `compress` succeeds and decoding its output — reading the
dictionary from the variable-length header, then scanning 12-bit
big-endian codewords, substituting the corresponding dictionary entry
for each and stopping at the sentinel codeword equal to the final
dictionary length — reproduces the input byte-for-byte. -/
theorem compress_lossless (body : List Nat) (hne : body ≠ [])
    (hbytes : ∀ x ∈ body, x < 256) :
    ∃ out, compress body = some out ∧ decompress out = some body := by
  obtain ⟨hcre, hlen4095, hsingle, hentlen⟩ := dictionary_creation_spec body hbytes
  set maxLen := (dcCommon body).foldl (fun m e => max m e.1.length) 0 with hml_def
  set rev := (dcCommon body).map (fun e => e.1) with hrev_def
  -- Greedy encoding succeeds and concatenating the matched entries
  -- reproduces the body.
  obtain ⟨codes, hcodes, hbound, hflat, hnonempty⟩ :=
    encodeGo_spec rev maxLen body.length body (le_refl _) (fun b hb => hsingle b hb)
  have henc : compress_encoded_body body maxLen rev = some codes := hcodes
  have hcodes_ne : codes ≠ [] := hnonempty hne
  -- Compaction.
  set used := sortLenAsc rev (dedupFirst codes) with hused_def
  set rev2 := used.map (fun i => rev.getD i []) with hrev2_def
  set recoded := codes.map (fun i => posOf used i) with hrec_def
  have hallb : codes.all (fun i => i < rev.length) = true := by
    rw [List.all_eq_true]
    intro i hi
    simpa using hbound i hi
  have hcomp : compress_compacted_body_lookup codes rev = some (recoded, rev2) := by
    rw [compress_compacted_body_lookup, if_pos hallb]
  have hmem_used : ∀ j ∈ codes, j ∈ used := by
    intro j hj
    rcases mem_dedupFirstGo [] codes j hj with hs | hd
    · simp at hs
    · exact (sortLenAsc_perm rev (dedupFirst codes)).mem_iff.mpr hd
  have hused_lt : ∀ j ∈ used, j < rev.length := by
    intro j hj
    have hjd := (sortLenAsc_perm rev (dedupFirst codes)).mem_iff.mp hj
    have := mem_dedupFirstGo_of [] codes j hjd
    simpa using hbound j this
  have hrec_bound : ∀ i ∈ recoded, i < rev2.length := by
    intro i hi
    rw [hrec_def] at hi
    rcases List.mem_map.mp hi with ⟨j, hj, rfl⟩
    have := (posOf_spec used j (hmem_used j hj)).1
    rw [hrev2_def, List.length_map]
    exact this
  have hrev2_len : rev2.length ≤ 4095 := by
    rw [hrev2_def, List.length_map, (sortLenAsc_perm rev (dedupFirst codes)).length_eq,
      dedupFirst]
    have hnd := (dedupFirstGo_nodup [] codes).1
    have hsub : ∀ j ∈ dedupFirstGo [] codes, j ∈ List.range rev.length := by
      intro j hj
      have := mem_dedupFirstGo_of [] codes j hj
      exact List.mem_range.mpr (by simpa using hbound j this)
    have hlen := (List.subperm_of_subset hnd hsub).length_le
    simp only [List.length_range] at hlen
    omega
  have hrev2_lt : rev2.length < 4096 := by omega
  have hrev2_ne : rev2 ≠ [] := by
    have hex : ∃ j, j ∈ codes := by
      match codes, hcodes_ne with
      | c :: _, _ => exact ⟨c, by simp⟩
    obtain ⟨j, hj⟩ := hex
    have hju : j ∈ used := hmem_used j hj
    rw [hrev2_def]
    intro hempty
    rw [List.map_eq_nil_iff] at hempty
    rw [hempty] at hju
    simp at hju
  have hrev2_entlen : ∀ e ∈ rev2, 1 ≤ e.length ∧ e.length ≤ 15 := by
    intro e he
    rw [hrev2_def] at he
    rcases List.mem_map.mp he with ⟨j, hj, rfl⟩
    exact hentlen _ (getD_mem_of_lt rev j (hused_lt j hj))
  -- The dictionary header.
  have hany : rev2.any (fun e => e.length = 0 ∨ 16 < e.length) = false := by
    rw [List.any_eq_false]
    intro e he
    have h1 := hrev2_entlen e he
    simp only [decide_eq_true_eq]
    omega
  have hheader : mk_compress_header rev2 = some (headerOfGroups (mkGroups rev2)) := by
    rw [mk_compress_header, if_neg hrev2_ne]
    rw [hany]
    simp
  have hflatg : (mkGroups rev2).flatten = rev2 := by
    match rev2, hrev2_ne with
    | e :: rest, _ =>
      rw [mkGroups, groupGo_flatten]
      simp
  have hwfg : GroupsWF (mkGroups rev2) := by
    match rev2, hrev2_ne, hrev2_entlen with
    | e :: rest, _, hent =>
      rw [mkGroups]
      apply groupGo_wf rest [e] e.length (by simp) (by simp) (by simp)
      intro x hx
      have hx2 : x ∈ e :: rest := by simpa using hx
      have := hent x hx2
      omega
  have hparse : parseDictHeader (headerOfGroups (mkGroups rev2) ++
      mk_encoded_body recoded rev2.length) =
      some (rev2, mk_encoded_body recoded rev2.length) := by
    rw [parseDictHeader]
    have h2 := parseDictHeaderF_groups (mkGroups rev2)
      (headerOfGroups (mkGroups rev2) ++ mk_encoded_body recoded rev2.length).length
      (mk_encoded_body recoded rev2.length)
      (by
        have h1 := headerOfGroups_length (mkGroups rev2)
        rw [List.length_append]
        omega)
      hwfg
    rw [h2, hflatg]
  have hdecode : decodeBody rev2.length (mk_encoded_body recoded rev2.length) =
      some recoded := by
    rw [mk_encoded_body]
    exact decode_pack rev2.length hrev2_lt recoded.length recoded (le_refl _)
      (fun c hc => hrec_bound c hc)
  have hsubst : substituteEntries rev2 recoded =
      some (recoded.map (fun i => rev2.getD i [])) :=
    substituteEntries_of_bounds rev2 recoded hrec_bound
  have hflat2 : (recoded.map (fun i => rev2.getD i [])).flatten = body := by
    rw [hrec_def, List.map_map]
    have hcong : codes.map ((fun i => rev2.getD i []) ∘ fun i => posOf used i) =
        codes.map (fun i => rev.getD i []) := by
      apply List.map_congr_left
      intro j hj
      have hju := hmem_used j hj
      obtain ⟨hlt, hget⟩ := posOf_spec used j hju
      show rev2.getD (posOf used j) [] = rev.getD j []
      rw [hrev2_def, List.getD_eq_getElem?_getD, List.getElem?_map, hget]
      rfl
    rw [hcong, hflat]
  have hhdr : mk_block_header 2 = some [0, 0, 4, 0, 2, 0, 0] := rfl
  refine ⟨[0, 0, 4, 0, 2, 0, 0] ++
    (headerOfGroups (mkGroups rev2) ++ mk_encoded_body recoded rev2.length), ?_, ?_⟩
  · simp only [compress, hcre, henc, hcomp, hhdr, hheader]
    rw [List.append_assoc]
  · show decompress (0 :: 0 :: 4 :: 0 :: 2 :: 0 :: 0 ::
      (headerOfGroups (mkGroups rev2) ++ mk_encoded_body recoded rev2.length)) = some body
    simp only [decompress, hparse, hdecode, hsubst, hflat2]

theorem compress_lossless_witness :
    (∃ out, compress [7] = some out ∧ decompress out = some [7]) ∧
    decompress ((compress [7]).getD []) = some [7] :=
  ⟨compress_lossless [7] (by decide) (by decide), by decide⟩

/-! ## Path-normalization facts (toward the folder-ordering claim) -/

theorem collapse_mem : ∀ (l : Str), ∀ c ∈ collapseSlashes l, c ∈ l
  | [], _, h => h
  | [_], _, h => h
  | a :: b :: rest, c, h => by
    rw [collapseSlashes] at h
    split at h
    · exact List.mem_cons_of_mem a (collapse_mem (b :: rest) c h)
    · rcases List.mem_cons.1 h with h1 | h1
      · exact h1 ▸ List.mem_cons_self a _
      · exact List.mem_cons_of_mem a (collapse_mem (b :: rest) c h1)

theorem collapse_head : ∀ (xs : Str) (x : Char), ∃ t, collapseSlashes (x :: xs) = x :: t
  | [], x => ⟨[], rfl⟩
  | b :: rest, x => by
    rw [collapseSlashes]
    split
    · rename_i hx
      obtain ⟨t, ht⟩ := collapse_head rest b
      exact ⟨t, by rw [ht, hx.1, hx.2]⟩
    · exact ⟨collapseSlashes (b :: rest), rfl⟩

theorem okSlashes_collapse : ∀ (l : Str), okSlashes (collapseSlashes l) = true
  | [] => rfl
  | [_] => rfl
  | a :: b :: rest => by
    rw [collapseSlashes]
    split
    · exact okSlashes_collapse (b :: rest)
    · rename_i hab
      obtain ⟨t, ht⟩ := collapse_head rest b
      rw [ht, okSlashes, Bool.and_eq_true]
      refine ⟨?_, ?_⟩
      · simp only [Bool.not_eq_true', Bool.and_eq_false_iff, decide_eq_false_iff_not]
        exact not_and_or.mp hab
      · rw [← ht]
        exact okSlashes_collapse (b :: rest)

theorem okSlashes_append : ∀ (p q : Str), okSlashes (p ++ q) = true → okSlashes p = true
  | [], _, _ => rfl
  | [_], _, _ => rfl
  | a :: b :: rest, q, h => by
    rw [okSlashes, Bool.and_eq_true]
    rw [List.cons_append, List.cons_append, okSlashes, Bool.and_eq_true] at h
    exact ⟨h.1, okSlashes_append (b :: rest) q h.2⟩

theorem okSlashes_no_ss : ∀ (p q : Str), okSlashes (p ++ '/' :: '/' :: q) = false
  | [], q => by
    rw [List.nil_append, okSlashes]
    simp
  | [a], q => by
    have h := okSlashes_no_ss [] q
    rw [List.nil_append] at h
    rw [List.cons_append, List.nil_append, okSlashes, h, Bool.and_false]
  | a :: b :: rest, q => by
    have h := okSlashes_no_ss (b :: rest) q
    rw [List.cons_append] at h
    rw [List.cons_append, List.cons_append, okSlashes, h, Bool.and_false]

theorem collapse_id : ∀ (l : Str), okSlashes l = true → collapseSlashes l = l
  | [], _ => rfl
  | [_], _ => rfl
  | a :: b :: rest, h => by
    rw [okSlashes, Bool.and_eq_true] at h
    rw [collapseSlashes]
    split
    · rename_i hab
      exfalso
      have h1 := h.1
      rw [hab.1, hab.2] at h1
      simp at h1
    · rw [collapse_id (b :: rest) h.2]

theorem normalize_backslash_free (s : Str) : ∀ c ∈ normalize s, c ≠ '\\' := by
  intro c hc
  rw [normalize] at hc
  have h1 := collapse_mem _ c hc
  rw [List.mem_map] at h1
  obtain ⟨d, _, hd⟩ := h1
  intro hcc
  rw [hcc] at hd
  split at hd
  · exact absurd hd (by decide)
  · rename_i hne; exact hne hd

theorem okSlashes_normalize (s : Str) : okSlashes (normalize s) = true := by
  rw [normalize]
  exact okSlashes_collapse _

theorem normalize_id (l : Str) (hb : ∀ c ∈ l, c ≠ '\\') (hok : okSlashes l = true) :
    normalize l = l := by
  rw [normalize]
  have hmap : l.map (fun c => if c = '\\' then '/' else c) = l := by
    have h2 : l.map (fun c => if c = '\\' then '/' else c) = l.map id := by
      apply List.map_congr_left
      intro a ha
      simp [hb a ha]
    rw [h2, List.map_id]
  rw [hmap]
  exact collapse_id l hok

theorem splitCore_none : ∀ (l : Str), splitCore l = none → '/' ∉ l
  | [], _ => by simp
  | c :: rest, h => by
    rw [splitCore] at h
    cases hrest : splitCore rest with
    | some pr =>
      obtain ⟨p1, p2⟩ := pr
      rw [hrest] at h
      simp at h
    | none =>
      rw [hrest] at h
      by_cases hc : c = '/'
      · rw [if_pos hc] at h
        simp at h
      · intro hmem
        rcases List.mem_cons.1 hmem with h1 | h1
        · exact hc h1.symm
        · exact splitCore_none rest hrest h1

theorem splitCore_eq_none : ∀ (l : Str), '/' ∉ l → splitCore l = none
  | [], _ => rfl
  | c :: rest, h => by
    have hc : ¬(c = '/') := fun hcc => h (List.mem_cons.2 (Or.inl hcc.symm))
    rw [splitCore, splitCore_eq_none rest (fun hm => h (List.mem_cons.2 (Or.inr hm))),
      if_neg hc]

theorem splitCore_some : ∀ (l p n : Str), splitCore l = some (p, n) →
    l = p ++ '/' :: n ∧ '/' ∉ n
  | [], p, n, h => by simp [splitCore] at h
  | c :: rest, p, n, h => by
    rw [splitCore] at h
    cases hrest : splitCore rest with
    | some pr =>
      obtain ⟨p1, p2⟩ := pr
      rw [hrest] at h
      simp only [Option.some.injEq, Prod.mk.injEq] at h
      obtain ⟨h1, h2⟩ := h
      obtain ⟨hrec1, hrec2⟩ := splitCore_some rest p1 p2 hrest
      subst h1
      subst h2
      constructor
      · rw [hrec1, List.cons_append]
      · exact hrec2
    | none =>
      rw [hrest] at h
      by_cases hc : c = '/'
      · rw [if_pos hc] at h
        simp only [Option.some.injEq, Prod.mk.injEq] at h
        obtain ⟨h1, h2⟩ := h
        subst h1
        subst h2
        refine ⟨by rw [List.nil_append, hc], splitCore_none rest hrest⟩
      · rw [if_neg hc] at h
        exact absurd h (by simp)

theorem splitCore_append (p n : Str) (hn : '/' ∉ n) :
    splitCore (p ++ '/' :: n) = some (p, n) := by
  induction p with
  | nil =>
    rw [List.nil_append, splitCore, splitCore_eq_none n hn, if_pos rfl]
  | cons c rest ih =>
    rw [List.cons_append, splitCore, ih]

theorem splitPath_eq_of_splitCore (s q m : Str) (hclean : normalize s = s)
    (hsc : splitCore s = some (q, m)) : splitPath s = (q, m) := by
  simp only [splitPath]
  rw [hclean, hsc]

theorem splitPath_of_clean (p nm : Str)
    (hclean : normalize (p ++ '/' :: nm) = p ++ '/' :: nm) (hns : '/' ∉ nm) :
    splitPath (p ++ '/' :: nm) = (p, nm) := by
  simp only [splitPath]
  rw [hclean, splitCore_append _ _ hns]

theorem splitPath_recons (fn : Str) (h : (splitPath fn).2 ≠ []) :
    normalize fn = (splitPath fn).1 ++ '/' :: (splitPath fn).2 ∧
    '/' ∉ (splitPath fn).2 := by
  cases hsc : splitCore (normalize fn) with
  | some pr =>
    obtain ⟨p1, p2⟩ := pr
    have hsp : splitPath fn = (p1, p2) := by
      simp only [splitPath]
      rw [hsc]
    rw [hsp]
    exact splitCore_some _ _ _ hsc
  | none =>
    exfalso
    apply h
    simp only [splitPath]
    rw [hsc]

theorem splitPath_fst_clean (fn : Str) (h : (splitPath fn).2 ≠ []) :
    normalize (splitPath fn).1 = (splitPath fn).1 := by
  obtain ⟨hre, _⟩ := splitPath_recons fn h
  apply normalize_id
  · intro c hc
    exact normalize_backslash_free fn c (by rw [hre]; exact List.mem_append_left _ hc)
  · have hok := okSlashes_normalize fn
    rw [hre] at hok
    exact okSlashes_append _ _ hok

theorem splitPath_normalized (fn : Str) (h : (splitPath fn).2 ≠ []) :
    splitPath ((splitPath fn).1 ++ '/' :: (splitPath fn).2) = splitPath fn := by
  obtain ⟨hre, hns⟩ := splitPath_recons fn h
  have hnn : normalize ((splitPath fn).1 ++ '/' :: (splitPath fn).2) =
      (splitPath fn).1 ++ '/' :: (splitPath fn).2 := by
    have hn2 : normalize (normalize fn) = normalize fn :=
      normalize_id _ (normalize_backslash_free fn) (okSlashes_normalize fn)
    rw [hre] at hn2
    exact hn2
  rw [splitPath_of_clean _ _ hnn hns]

theorem splitPath_parent_no_slash (fn : Str) (h2 : (splitPath fn).2 ≠ [])
    (hp2 : (splitPath (splitPath fn).1).2 = []) :
    (splitPath fn).1.contains '/' = false := by
  have hclean := splitPath_fst_clean fn h2
  cases hsc : splitCore ((splitPath fn).1) with
  | none =>
    have hns := splitCore_none _ hsc
    rw [Bool.eq_false_iff]
    intro hc
    exact hns (List.mem_of_elem_eq_true hc)
  | some pr =>
    obtain ⟨q, m⟩ := pr
    have hsp : splitPath ((splitPath fn).1) = (q, m) :=
      splitPath_eq_of_splitCore _ _ _ hclean hsc
    rw [hsp] at hp2
    have hm : m = [] := hp2
    obtain ⟨hqe, _⟩ := splitCore_some _ _ _ hsc
    rw [hm] at hqe
    obtain ⟨hre, _⟩ := splitPath_recons fn h2
    exfalso
    have hok := okSlashes_normalize fn
    rw [hre, hqe, List.append_assoc, List.cons_append, List.nil_append] at hok
    rw [okSlashes_no_ss] at hok
    exact absurd hok (by decide)

/-! ## Lexicographic-order facts for the folder sort -/

theorem strLt_append_cons : ∀ (p : Str) (c : Char) (t : Str),
    strLt p (p ++ c :: t) = true
  | [], _, _ => rfl
  | a :: as, c, t => by
    rw [List.cons_append, strLt, if_neg (Nat.lt_irrefl a.toNat),
      if_neg (Nat.lt_irrefl a.toNat)]
    exact strLt_append_cons as c t

theorem strLt_asymm : ∀ (a b : Str), strLt a b = true → strLt b a = false
  | [], [], h => by simp [strLt] at h
  | [], _ :: _, _ => rfl
  | _ :: _, [], h => by simp [strLt] at h
  | a :: as, b :: bs, h => by
    rw [strLt] at h ⊢
    by_cases hab : a.toNat < b.toNat
    · rw [if_neg (by omega : ¬ b.toNat < a.toNat), if_pos hab]
    · by_cases hba : b.toNat < a.toNat
      · rw [if_neg hab, if_pos hba] at h
        simp at h
      · rw [if_neg hab, if_neg hba] at h
        rw [if_neg hba, if_neg hab]
        exact strLt_asymm as bs h

theorem strLt_trans : ∀ (a b c : Str), strLt a b = true → strLt b c = true →
    strLt a c = true
  | [], _, _ :: _, _, _ => rfl
  | [], [], [], h1, _ => by simp [strLt] at h1
  | [], _ :: _, [], _, h2 => by simp [strLt] at h2
  | _ :: _, [], _, h1, _ => by simp [strLt] at h1
  | _ :: _, _ :: _, [], _, h2 => by simp [strLt] at h2
  | a :: as, b :: bs, c :: cs, h1, h2 => by
    rw [strLt] at h1 h2 ⊢
    by_cases hab : a.toNat < b.toNat
    · by_cases hbc : b.toNat < c.toNat
      · rw [if_pos (by omega : a.toNat < c.toNat)]
      · by_cases hcb : c.toNat < b.toNat
        · rw [if_neg hbc, if_pos hcb] at h2
          simp at h2
        · rw [if_pos (by omega : a.toNat < c.toNat)]
    · by_cases hba : b.toNat < a.toNat
      · rw [if_neg hab, if_pos hba] at h1
        simp at h1
      · rw [if_neg hab, if_neg hba] at h1
        by_cases hbc : b.toNat < c.toNat
        · rw [if_pos (by omega : a.toNat < c.toNat)]
        · by_cases hcb : c.toNat < b.toNat
          · rw [if_neg hbc, if_pos hcb] at h2
            simp at h2
          · rw [if_neg hbc, if_neg hcb] at h2
            rw [if_neg (by omega : ¬ a.toNat < c.toNat),
              if_neg (by omega : ¬ c.toNat < a.toNat)]
            exact strLt_trans as bs cs h1 h2

theorem insertFolder_perm (x : Str × List Nat) :
    ∀ (l : List (Str × List Nat)), (insertFolder x l).Perm (x :: l)
  | [] => List.Perm.refl _
  | y :: rest => by
    rw [insertFolder]
    split
    · exact List.Perm.refl _
    · exact ((insertFolder_perm x rest).cons y).trans (List.Perm.swap x y rest)

theorem sortFolders_perm (l : List (Str × List Nat)) : (sortFolders l).Perm l := by
  have h := foldl_insert_perm insertFolder insertFolder_perm l []
  simpa [sortFolders] using h

theorem insertFolder_pairwise (x : Str × List Nat) :
    ∀ (l : List (Str × List Nat)),
    List.Pairwise (fun a b => strLt b.1 a.1 = false) l →
    List.Pairwise (fun a b => strLt b.1 a.1 = false) (insertFolder x l)
  | [], _ => List.pairwise_singleton _ _
  | y :: rest, h => by
    rw [insertFolder]
    rw [List.pairwise_cons] at h
    split
    · rename_i hxy
      rw [List.pairwise_cons]
      refine ⟨?_, List.pairwise_cons.2 h⟩
      intro z hz
      rcases List.mem_cons.1 hz with h1 | h1
      · rw [h1]
        exact strLt_asymm _ _ hxy
      · have hyz := h.1 z h1
        cases hzx : strLt z.1 x.1 with
        | false => rfl
        | true =>
          have htr := strLt_trans _ _ _ hzx hxy
          rw [htr] at hyz
          exact absurd hyz (by decide)
    · rename_i hxy
      rw [List.pairwise_cons]
      refine ⟨?_, insertFolder_pairwise x rest h.2⟩
      intro z hz
      have hz2 := (insertFolder_perm x rest).mem_iff.1 hz
      rcases List.mem_cons.1 hz2 with h1 | h1
      · rw [h1, Bool.eq_false_iff]
        exact hxy
      · exact h.1 z h1

theorem foldl_insertFolder_pairwise :
    ∀ (l acc : List (Str × List Nat)),
    List.Pairwise (fun a b => strLt b.1 a.1 = false) acc →
    List.Pairwise (fun a b => strLt b.1 a.1 = false)
      (l.foldl (fun a x => insertFolder x a) acc)
  | [], _, h => h
  | x :: rest, acc, h => by
    rw [List.foldl_cons]
    exact foldl_insertFolder_pairwise rest _ (insertFolder_pairwise x acc h)

theorem sortFolders_pairwise (l : List (Str × List Nat)) :
    List.Pairwise (fun a b => strLt b.1 a.1 = false) (sortFolders l) := by
  rw [sortFolders]
  exact foldl_insertFolder_pairwise l [] List.Pairwise.nil

/-! ## Which operations touch the folder list -/

theorem add_string_folders (b : Blocks) (t : Str) :
    (Blocks.add_string b t).2.folders = b.folders := by
  rw [Blocks.add_string]
  cases assocGet b.strings t <;> rfl

theorem add_home_replace_string_folders (b : Blocks) (t : Str) :
    (Blocks.add_home_replace_string b t).2.folders = b.folders := by
  rw [Blocks.add_home_replace_string]
  cases assocGet b.homeReplaceStrings t <;> rfl

theorem add_rel_path_folders (b : Blocks) (t : Str) :
    (Blocks.add_rel_path b t).2.folders = b.folders := by
  rw [Blocks.add_rel_path]
  cases assocGet b.relPaths t <;> rfl

theorem snd_of_some_eq {α β : Type} {x : α × β} {i : α} {b : β}
    (h : some x = some (i, b)) : b = x.2 := by
  rw [Option.some.inj h]

theorem fst_of_some_eq {α β : Type} {x : α × β} {i : α} {b : β}
    (h : some x = some (i, b)) : i = x.1 := by
  rw [Option.some.inj h]

theorem add_path_folders (b : Blocks) (t : Str) (i : Nat) (b' : Blocks)
    (h : Blocks.add_path b t = some (i, b')) : b'.folders = b.folders := by
  rw [Blocks.add_path] at h
  split at h
  · rw [snd_of_some_eq h]
    exact add_rel_path_folders b []
  · split at h
    · rw [snd_of_some_eq h]
      exact add_rel_path_folders b (t.drop 2)
    · split at h
      · simp only [] at h
        split at h
        · exact absurd h (by simp)
        · rw [snd_of_some_eq h]
          exact add_string_folders b _
      · rw [snd_of_some_eq h]
        exact add_string_folders b t

theorem add_local_text_file_folders (os : OS) (b : Blocks) (g l : Str) :
    (Blocks.add_local_text_file os b g l).folders = b.folders := by
  simp only [Blocks.add_local_text_file]
  split <;> rfl

theorem add_local_source_file_folders (os : OS) (b : Blocks) (g l : Str) :
    (Blocks.add_local_source_file os b g l).folders = b.folders := by
  simp only [Blocks.add_local_source_file]
  split <;> rfl

theorem add_contents_file_folders (b : Blocks) (g c : Str) :
    (Blocks.add_contents_file b g c).folders = b.folders := rfl

theorem add_test_file_folders (os : OS) (b : Blocks) (n l : Str) :
    (Blocks.add_test_file os b n l).folders = b.folders := by
  simp only [Blocks.add_test_file]
  split <;> rfl

theorem add_user_folders (b : Blocks) (u p : Str) (b' : Blocks)
    (h : Blocks.add_user b u p = some b') : b'.folders = b.folders := by
  unfold Blocks.add_user at h
  simp only [Option.bind_eq_bind, Option.bind_eq_some] at h
  obtain ⟨blk, _, h2⟩ := h
  obtain rfl := Option.some.inj h2
  show (Blocks.add_string (Blocks.add_string b u).2 p).2.folders = b.folders
  rw [add_string_folders, add_string_folders]

theorem add_group_folders (b : Blocks) (u g : Str) (b' : Blocks)
    (h : Blocks.add_group b u g = some b') : b'.folders = b.folders := by
  unfold Blocks.add_group at h
  simp only [Option.bind_eq_bind, Option.bind_eq_some] at h
  obtain ⟨blk, _, h2⟩ := h
  obtain rfl := Option.some.inj h2
  show (Blocks.add_string (Blocks.add_string b u).2 g).2.folders = b.folders
  rw [add_string_folders, add_string_folders]

theorem add_rm_user_folders (b : Blocks) (u : Str) (r : Bool) (b' : Blocks)
    (h : Blocks.add_rm_user b u r = some b') : b'.folders = b.folders := by
  unfold Blocks.add_rm_user at h
  simp only [Option.bind_eq_bind, Option.bind_eq_some] at h
  obtain ⟨blk, _, h2⟩ := h
  obtain rfl := Option.some.inj h2
  show (Blocks.add_string b u).2.folders = b.folders
  rw [add_string_folders]

theorem add_rm_group_folders (b : Blocks) (u g : Str) (b' : Blocks)
    (h : Blocks.add_rm_group b u g = some b') : b'.folders = b.folders := by
  unfold Blocks.add_rm_group at h
  simp only [Option.bind_eq_bind, Option.bind_eq_some] at h
  obtain ⟨blk, _, h2⟩ := h
  obtain rfl := Option.some.inj h2
  show (Blocks.add_string (Blocks.add_string b u).2 g).2.folders = b.folders
  rw [add_string_folders, add_string_folders]

theorem add_chmod_folders (b : Blocks) (f p : Str) (r : Bool) (b' : Blocks)
    (h : Blocks.add_chmod b f p r = some b') : b'.folders = b.folders := by
  unfold Blocks.add_chmod at h
  simp only [Option.bind_eq_bind, Option.bind_eq_some] at h
  obtain ⟨⟨fIdx, b1⟩, hpath, h2⟩ := h
  obtain ⟨blk, _, h3⟩ := h2
  obtain rfl := Option.some.inj h3
  show (Blocks.add_string b1 p).2.folders = b.folders
  rw [add_string_folders]
  exact add_path_folders b _ fIdx b1 hpath

theorem add_chown_folders (b : Blocks) (f u : Str) (r : Bool) (b' : Blocks)
    (h : Blocks.add_chown b f u r = some b') : b'.folders = b.folders := by
  unfold Blocks.add_chown at h
  simp only [Option.bind_eq_bind, Option.bind_eq_some] at h
  obtain ⟨⟨fIdx, b1⟩, hpath, h2⟩ := h
  obtain ⟨blk, _, h3⟩ := h2
  obtain rfl := Option.some.inj h3
  show (Blocks.add_string b1 u).2.folders = b.folders
  rw [add_string_folders]
  exact add_path_folders b _ fIdx b1 hpath

theorem add_chgroup_folders (b : Blocks) (f g : Str) (r : Bool) (b' : Blocks)
    (h : Blocks.add_chgroup b f g r = some b') : b'.folders = b.folders := by
  unfold Blocks.add_chgroup at h
  simp only [Option.bind_eq_bind, Option.bind_eq_some] at h
  obtain ⟨⟨fIdx, b1⟩, hpath, h2⟩ := h
  obtain ⟨blk, _, h3⟩ := h2
  obtain rfl := Option.some.inj h3
  show (Blocks.add_string b1 g).2.folders = b.folders
  rw [add_string_folders]
  exact add_path_folders b _ fIdx b1 hpath

theorem add_delete_folders (b : Blocks) (p : Str) (b' : Blocks)
    (h : Blocks.add_delete b p = some b') : b'.folders = b.folders := by
  unfold Blocks.add_delete at h
  simp only [Option.bind_eq_bind, Option.bind_eq_some] at h
  obtain ⟨⟨pIdx, b1⟩, hpath, h2⟩ := h
  obtain ⟨blk, _, h3⟩ := h2
  obtain rfl := Option.some.inj h3
  show b1.folders = b.folders
  exact add_path_folders b _ pIdx b1 hpath

theorem addPathsList_folders :
    ∀ (args : List Str) (b : Blocks) (is : List Nat) (b' : Blocks),
    addPathsList b args = some (is, b') → b'.folders = b.folders
  | [], b, is, b', h => by
    rw [addPathsList] at h
    rw [snd_of_some_eq h]
  | a :: rest, b, is, b', h => by
    unfold addPathsList at h
    simp only [Option.bind_eq_bind, Option.bind_eq_some] at h
    obtain ⟨⟨i, b1⟩, hpath, h2⟩ := h
    obtain ⟨⟨is2, b2⟩, hrest, h3⟩ := h2
    rw [snd_of_some_eq h3]
    show b2.folders = b.folders
    rw [addPathsList_folders rest b1 is2 b2 hrest]
    exact add_path_folders b a i b1 hpath

theorem add_launch_folders (b : Blocks) (args : List Str) (b' : Blocks)
    (h : Blocks.add_launch b args = some b') : b'.folders = b.folders := by
  unfold Blocks.add_launch at h
  simp only [Option.bind_eq_bind, Option.bind_eq_some] at h
  obtain ⟨⟨argIdx, b1⟩, hlist, h2⟩ := h
  obtain ⟨blk, _, h3⟩ := h2
  obtain rfl := Option.some.inj h3
  show b1.folders = b.folders
  exact addPathsList_folders args b argIdx b1 hlist

/-! ## The folder-list invariant through `add_folder` -/

theorem folderKeyOk_mono (keys keys' : List Str) (p : Str)
    (hsub : ∀ x ∈ keys, x ∈ keys') (h : folderKeyOk keys p) :
    folderKeyOk keys' p := by
  obtain ⟨h1, h2⟩ := h
  refine ⟨h1, ?_⟩
  rcases h2 with h2 | h2 | h2
  · exact Or.inl h2
  · exact Or.inr (Or.inl h2)
  · exact Or.inr (Or.inr (hsub _ h2))

theorem add_folder_fuel_parent (fuel : Nat) (b : Blocks) (fn : Str) (b' : Blocks)
    (h : Blocks.add_folder_fuel fuel b fn = some b') :
    fn = "/".toList ∨ fn = "~".toList ∨ (splitPath fn).2 = [] ∨
    ((splitPath fn).1 ++ '/' :: (splitPath fn).2) ∈ b'.folders.map Prod.fst := by
  cases fuel with
  | zero =>
    rw [Blocks.add_folder_fuel] at h
    exact absurd h (by simp)
  | succ fuel =>
    rw [Blocks.add_folder_fuel] at h
    split at h
    · rename_i hroot
      rcases hroot with h1 | h1
      · exact Or.inl h1
      · exact Or.inr (Or.inl h1)
    · simp only [] at h
      split at h
      · rename_i hpn2
        exact Or.inr (Or.inr (Or.inl hpn2))
      · split at h
        · rename_i hpresent
          obtain rfl := Option.some.inj h
          refine Or.inr (Or.inr (Or.inr ?_))
          rw [List.any_eq_true] at hpresent
          obtain ⟨e, he, heq⟩ := hpresent
          rw [List.mem_map]
          exact ⟨e, he, by simpa using heq⟩
        · split at h
          · exact absurd h (by simp)
          · rename_i b1 hrec
            split at h
            · exact absurd h (by simp)
            · rename_i parentIdx b2 hpath
              obtain ⟨nameIdx, b3, hns⟩ :
                  ∃ ni b3, b2.add_string (splitPath fn).2 = (ni, b3) := ⟨_, _, rfl⟩
              rw [hns] at h
              simp only [] at h
              split at h
              · exact absurd h (by simp)
              · rename_i blk hmk
                obtain rfl := Option.some.inj h
                refine Or.inr (Or.inr (Or.inr ?_))
                show _ ∈ (b3.folders ++
                  [((splitPath fn).1 ++ '/' :: (splitPath fn).2, blk)]).map Prod.fst
                rw [List.map_append]
                apply List.mem_append_right
                simp

theorem add_folder_fuel_inv : ∀ (fuel : Nat) (b : Blocks) (fn : Str) (b' : Blocks),
    Blocks.add_folder_fuel fuel b fn = some b' → FoldersInv b.folders →
    FoldersInv b'.folders
  | 0, b, fn, b', h, _ => by
    rw [Blocks.add_folder_fuel] at h
    exact absurd h (by simp)
  | fuel + 1, b, fn, b', h, hinv => by
    rw [Blocks.add_folder_fuel] at h
    split at h
    · obtain rfl := Option.some.inj h
      exact hinv
    · simp only [] at h
      split at h
      · obtain rfl := Option.some.inj h
        exact hinv
      · rename_i hpn2
        split at h
        · obtain rfl := Option.some.inj h
          exact hinv
        · split at h
          · exact absurd h (by simp)
          · rename_i b1 hrec
            split at h
            · exact absurd h (by simp)
            · rename_i parentIdx b2 hpath
              obtain ⟨nameIdx, b3, hns⟩ :
                  ∃ ni b3, b2.add_string (splitPath fn).2 = (ni, b3) := ⟨_, _, rfl⟩
              rw [hns] at h
              simp only [] at h
              split at h
              · exact absurd h (by simp)
              · rename_i blk hmk
                obtain rfl := Option.some.inj h
                have hinv1 : FoldersInv b1.folders :=
                  add_folder_fuel_inv fuel b _ b1 hrec hinv
                have hb3 : b3.folders = b1.folders := by
                  have hx : b3 = (b2.add_string (splitPath fn).2).2 := by rw [hns]
                  rw [hx, add_string_folders]
                  exact add_path_folders b1 _ parentIdx b2 hpath
                show FoldersInv (b3.folders ++
                  [((splitPath fn).1 ++ '/' :: (splitPath fn).2, blk)])
                rw [hb3]
                intro pr hpr
                rcases List.mem_append.1 hpr with hm | hm
                · refine folderKeyOk_mono _ _ _ ?_ (hinv1 pr hm)
                  intro x hx
                  rw [List.map_append]
                  exact List.mem_append_left _ hx
                · rw [List.mem_singleton] at hm
                  subst hm
                  have hne2 : ((splitPath fn).2 : Str) ≠ [] := hpn2
                  have hsp := splitPath_normalized fn hne2
                  show folderKeyOk _ ((splitPath fn).1 ++ '/' :: (splitPath fn).2)
                  constructor
                  · rw [hsp]
                  · rw [hsp]
                    have hpar := add_folder_fuel_parent fuel b _ b1 hrec
                    rcases hpar with h1 | h1 | h1 | h1
                    · exact Or.inl (by rw [h1]; rfl)
                    · exact Or.inl (by rw [h1]; rfl)
                    · exact Or.inr (Or.inl (splitPath_parent_no_slash fn hne2 h1))
                    · by_cases hpp : (splitPath (splitPath fn).1).2 = []
                      · exact Or.inr (Or.inl (splitPath_parent_no_slash fn hne2 hpp))
                      · refine Or.inr (Or.inr ?_)
                        have hclean := splitPath_fst_clean fn hne2
                        obtain ⟨hre2, _⟩ := splitPath_recons ((splitPath fn).1) hpp
                        rw [hclean] at hre2
                        rw [← hre2] at h1
                        rw [List.map_append]
                        exact List.mem_append_left _ h1

theorem add_folder_inv (b : Blocks) (fn : Str) (b' : Blocks)
    (h : Blocks.add_folder b fn = some b') (hinv : FoldersInv b.folders) :
    FoldersInv b'.folders :=
  add_folder_fuel_inv _ b fn b' h hinv

theorem add_build_inv (b : Blocks) (s t : Str) (b' : Blocks)
    (h : Blocks.add_build b s t = some b') (hinv : FoldersInv b.folders) :
    FoldersInv b'.folders := by
  unfold Blocks.add_build at h
  simp only [Option.bind_eq_bind, Option.bind_eq_some] at h
  obtain ⟨b1, hfold, h2⟩ := h
  obtain ⟨⟨dirnameIdx, b2⟩, hpath, h3⟩ := h2
  have hfi : FoldersInv b1.folders := add_folder_inv b _ b1 hfold hinv
  have h2f : b2.folders = b1.folders := add_path_folders b1 _ dirnameIdx b2 hpath
  have h3f : (Blocks.add_string b2 (splitPath t).2).2.folders = b1.folders := by
    rw [add_string_folders]
    exact h2f
  split at h3
  · simp only [Option.bind_eq_bind, Option.bind_eq_some] at h3
    obtain ⟨⟨sourceIdx, b4⟩, hpath2, h4⟩ := h3
    obtain ⟨blk, _, h5⟩ := h4
    obtain rfl := Option.some.inj h5
    show FoldersInv b4.folders
    rw [add_path_folders _ _ sourceIdx b4 hpath2, h3f]
    exact hfi
  · obtain rfl := Option.some.inj h3
    show FoldersInv (Blocks.add_string b2 (splitPath t).2).2.folders
    rw [h3f]
    exact hfi

theorem add_copy_inv (b : Blocks) (s t : Str) (b' : Blocks)
    (h : Blocks.add_copy b s t = some b') (hinv : FoldersInv b.folders) :
    FoldersInv b'.folders := by
  unfold Blocks.add_copy at h
  simp only [Option.bind_eq_bind, Option.bind_eq_some] at h
  obtain ⟨⟨sourceIdx, b1⟩, hpath1, h2⟩ := h
  obtain ⟨b2, hfold, h3⟩ := h2
  obtain ⟨⟨dirnameIdx, b3⟩, hpath2, h4⟩ := h3
  obtain ⟨blk, _, h5⟩ := h4
  obtain rfl := Option.some.inj h5
  show FoldersInv (Blocks.add_string b3 (splitPath t).2).2.folders
  rw [add_string_folders, add_path_folders b2 _ dirnameIdx b3 hpath2]
  have h1f : b1.folders = b.folders := add_path_folders b _ sourceIdx b1 hpath1
  apply add_folder_inv b1 _ b2 hfold
  rw [h1f]
  exact hinv

theorem add_move_inv (b : Blocks) (s t : Str) (b' : Blocks)
    (h : Blocks.add_move b s t = some b') (hinv : FoldersInv b.folders) :
    FoldersInv b'.folders := by
  unfold Blocks.add_move at h
  simp only [Option.bind_eq_bind, Option.bind_eq_some] at h
  obtain ⟨⟨sourceIdx, b1⟩, hpath1, h2⟩ := h
  obtain ⟨b2, hfold, h3⟩ := h2
  obtain ⟨⟨dirnameIdx, b3⟩, hpath2, h4⟩ := h3
  obtain ⟨blk, _, h5⟩ := h4
  obtain rfl := Option.some.inj h5
  show FoldersInv (Blocks.add_string b3 (splitPath t).2).2.folders
  rw [add_string_folders, add_path_folders b2 _ dirnameIdx b3 hpath2]
  have h1f : b1.folders = b.folders := add_path_folders b _ sourceIdx b1 hpath1
  apply add_folder_inv b1 _ b2 hfold
  rw [h1f]
  exact hinv

theorem add_file_inv (b : Blocks) (fn c : Str) (r : Bool) (blk : List Nat)
    (b' : Blocks) (h : Blocks.add_file b fn c r = some (blk, b'))
    (hinv : FoldersInv b.folders) : FoldersInv b'.folders := by
  unfold Blocks.add_file at h
  simp only [] at h
  split at h
  · exact absurd h (by simp)
  · simp only [Option.bind_eq_bind, Option.bind_eq_some] at h
    obtain ⟨b1, hfold, h2⟩ := h
    obtain ⟨⟨dirnameIdx, b2⟩, hpath, h3⟩ := h2
    obtain ⟨blk2, _, h4⟩ := h3
    rw [snd_of_some_eq h4]
    have hfi : FoldersInv b2.folders := by
      rw [add_path_folders b1 _ dirnameIdx b2 hpath]
      exact add_folder_inv b _ b1 hfold hinv
    cases r with
    | true =>
      show FoldersInv (Blocks.add_home_replace_string
        (Blocks.add_string b2 (splitPath fn).2).2 c).2.folders
      rw [add_home_replace_string_folders, add_string_folders]
      exact hfi
    | false =>
      show FoldersInv (Blocks.add_string
        (Blocks.add_string b2 (splitPath fn).2).2 c).2.folders
      rw [add_string_folders, add_string_folders]
      exact hfi

theorem resolveExecEntries_folders :
    ∀ (es : List ExecEntry) (b : Blocks) (out : List (List Nat)) (b' : Blocks)
    (out' : List (List Nat)),
    resolveExecEntries b out es = some (b', out') → b'.folders = b.folders
  | [], b, out, b', out', h => by
    rw [resolveExecEntries] at h
    rw [fst_of_some_eq h]
  | ExecEntry.raw blk :: rest, b, out, b', out', h => by
    rw [resolveExecEntries] at h
    exact resolveExecEntries_folders rest b _ b' out' h
  | ExecEntry.deferred true name :: rest, b, out, b', out', h => by
    rw [resolveExecEntries] at h
    split at h
    · exact absurd h (by simp)
    · rename_i entry hfind
      simp only [] at h
      split at h
      · have hr := resolveExecEntries_folders rest _ out b' out' h
        rw [hr]
      · split at h
        · have hr := resolveExecEntries_folders rest _ out b' out' h
          rw [hr]
        · split at h
          · exact absurd h (by simp)
          · rename_i srcIdx b1 hpath
            split at h
            · exact absurd h (by simp)
            · rename_i blk hmk
              have hr := resolveExecEntries_folders rest b1 _ b' out' h
              rw [hr]
              exact add_path_folders b _ srcIdx b1 hpath
  | ExecEntry.deferred false name :: rest, b, out, b', out', h => by
    rw [resolveExecEntries] at h
    split at h
    · exact absurd h (by simp)
    · rename_i entry hfind
      simp only [] at h
      split at h
      · have hr := resolveExecEntries_folders rest _ out b' out' h
        rw [hr]
      · rename_i gameFile hgf
        obtain ⟨nameIdx, b1, hns⟩ :
            ∃ ni b1, b.add_string name = (ni, b1) := ⟨_, _, rfl⟩
        rw [hns] at h
        simp only [] at h
        split at h
        · exact absurd h (by simp)
        · rename_i fileIdx b2 hpath
          split at h
          · exact absurd h (by simp)
          · rename_i blk hmk
            have hr := resolveExecEntries_folders rest b2 _ b' out' h
            rw [hr, add_path_folders b1 _ fileIdx b2 hpath]
            have hx : b1 = (b.add_string name).2 := by rw [hns]
            rw [hx, add_string_folders]

theorem addFileBlocks_inv :
    ∀ (rfs : List ResolvedFile) (b : Blocks) (out : List (List Nat)) (b' : Blocks),
    addFileBlocks b rfs = some (out, b') → FoldersInv b.folders →
    FoldersInv b'.folders
  | [], b, out, b', h, hinv => by
    rw [addFileBlocks] at h
    rw [snd_of_some_eq h]
    exact hinv
  | rf :: rest, b, out, b', h, hinv => by
    unfold addFileBlocks at h
    simp only [Option.bind_eq_bind, Option.bind_eq_some] at h
    obtain ⟨⟨blk, b1⟩, hfile, h2⟩ := h
    obtain ⟨⟨blks, b2⟩, hrest, h3⟩ := h2
    rw [snd_of_some_eq h3]
    show FoldersInv b2.folders
    exact addFileBlocks_inv rest b1 blks b2 hrest
      (add_file_inv b _ _ _ blk b1 hfile hinv)

theorem assemblePhases_inv (os : OS) (fuel : Nat) (b : Blocks) (bf : Blocks)
    (x : Option (List (List Nat) × List (List Nat)))
    (h : Blocks.assemblePhases os fuel b = some (bf, x))
    (hinv : FoldersInv b.folders) : FoldersInv bf.folders := by
  rw [Blocks.assemblePhases] at h
  split at h
  · exact absurd h (by simp)
  · rename_i fm1 hpfm
    rw [fst_of_some_eq h]
    exact hinv
  · rename_i fm1 resolved hpfm
    split at h
    · exact absurd h (by simp)
    · rename_i fileBlocks b2 hafb
      split at h
      · exact absurd h (by simp)
      · rename_i b3 execOut hree
        rw [fst_of_some_eq h]
        show FoldersInv b3.folders
        rw [resolveExecEntries_folders _ b2 [] b3 execOut hree]
        exact addFileBlocks_inv resolved _ fileBlocks b2 hafb hinv

theorem reachable_inv (os : OS) (b : Blocks) (h : Reachable os b) :
    FoldersInv b.folders := by
  induction h with
  | init => intro pr hpr; exact absurd hpr (by simp [Blocks.init])
  | add_folder hr hstep ih => exact add_folder_inv _ _ _ hstep ih
  | add_local_text_file hr ih => rw [add_local_text_file_folders]; exact ih
  | add_local_source_file hr ih => rw [add_local_source_file_folders]; exact ih
  | add_contents_file hr ih => rw [add_contents_file_folders]; exact ih
  | add_test_file hr ih => rw [add_test_file_folders]; exact ih
  | add_build hr hstep ih => exact add_build_inv _ _ _ _ hstep ih
  | add_user hr hstep ih => rw [add_user_folders _ _ _ _ hstep]; exact ih
  | add_group hr hstep ih => rw [add_group_folders _ _ _ _ hstep]; exact ih
  | add_rm_user hr hstep ih => rw [add_rm_user_folders _ _ _ _ hstep]; exact ih
  | add_rm_group hr hstep ih => rw [add_rm_group_folders _ _ _ _ hstep]; exact ih
  | add_chmod hr hstep ih => rw [add_chmod_folders _ _ _ _ _ hstep]; exact ih
  | add_chown hr hstep ih => rw [add_chown_folders _ _ _ _ _ hstep]; exact ih
  | add_chgroup hr hstep ih => rw [add_chgroup_folders _ _ _ _ _ hstep]; exact ih
  | add_launch hr hstep ih => rw [add_launch_folders _ _ _ hstep]; exact ih
  | add_copy hr hstep ih => exact add_copy_inv _ _ _ _ hstep ih
  | add_move hr hstep ih => exact add_move_inv _ _ _ _ hstep ih
  | add_delete hr hstep ih => rw [add_delete_folders _ _ _ hstep]; exact ih

theorem parentsOkAmendedGo_of_sorted :
    ∀ (rest seen : List Str),
    (∀ p ∈ rest, p = (splitPath p).1 ++ '/' :: (splitPath p).2 ∧
      (isRootPath (splitPath p).1 = true ∨ (splitPath p).1.contains '/' = false ∨
       (splitPath p).1 ∈ seen ∨ (splitPath p).1 ∈ rest)) →
    List.Pairwise (fun a b => strLt b a = false) rest →
    parentsOkAmendedGo seen rest = true
  | [], _, _, _ => rfl
  | p :: rest, seen, hH, hsort => by
    rw [parentsOkAmendedGo, Bool.and_eq_true]
    obtain ⟨hre, hdisj⟩ := hH p (List.mem_cons_self p rest)
    rw [List.pairwise_cons] at hsort
    constructor
    · simp only [Bool.or_eq_true, Bool.not_eq_true']
      rcases hdisj with h1 | h1 | h1 | h1
      · exact Or.inl (Or.inl h1)
      · exact Or.inl (Or.inr h1)
      · exact Or.inr (List.elem_iff.2 h1)
      · rcases List.mem_cons.1 h1 with h2 | h2
        · exfalso
          rw [h2] at hre
          have hlen := congrArg List.length hre
          rw [List.length_append, List.length_cons] at hlen
          omega
        · exfalso
          have hlt : strLt (splitPath p).1 p = true := by
            have := strLt_append_cons (splitPath p).1 '/' (splitPath p).2
            rw [← hre] at this
            exact this
          have hfalse := hsort.1 _ h2
          rw [hlt] at hfalse
          exact absurd hfalse (by decide)
    · apply parentsOkAmendedGo_of_sorted rest (seen ++ [p])
      · intro q hq
        obtain ⟨hq1, hq2⟩ := hH q (List.mem_cons_of_mem p hq)
        refine ⟨hq1, ?_⟩
        rcases hq2 with h1 | h1 | h1 | h1
        · exact Or.inl h1
        · exact Or.inr (Or.inl h1)
        · exact Or.inr (Or.inr (Or.inl (List.mem_append_left _ h1)))
        · rcases List.mem_cons.1 h1 with h2 | h2
          · refine Or.inr (Or.inr (Or.inl (List.mem_append_right _ ?_)))
            rw [h2]
            exact List.mem_singleton_self p
          · exact Or.inr (Or.inr (Or.inr h2))
      · exact hsort.2

/-- Claim C8 (corrected): the claim says every folder chunk's parent path
either is a root (`/`, `~`, or empty) or appears as an earlier folder chunk
in the assembled stream.  That fails when the parent is a single-segment
relative name (`add_folder("a/b")` never records a chunk for `a`), so the
amended property also allows a parent containing no `/`.  For every
assembler state reachable through the public manifest API, when `assemble`
returns a byte stream, the emitted folder paths (sorted by full path)
satisfy the amended property: each parent is a root, a single-segment
relative name, or an earlier folder chunk's path. -/
theorem assembled_folder_parents_precede (os : OS) (fuel : Nat) (b : Blocks)
    (hreach : Reachable os b) (s : List Nat) (ps : List Str)
    (hasm : Blocks.assemble os fuel b = some (some s))
    (hpaths : assembledFolderPaths os fuel b = some ps) :
    parentsOkAmended ps = true := by
  rw [assembledFolderPaths] at hpaths
  split at hpaths
  · rename_i bf y hphases
    obtain rfl := Option.some.inj hpaths
    have hinv : FoldersInv bf.folders :=
      assemblePhases_inv os fuel b bf _ hphases (reachable_inv os b hreach)
    rw [parentsOkAmended]
    apply parentsOkAmendedGo_of_sorted
    · intro p hp
      rw [List.mem_map] at hp
      obtain ⟨e, he, rfl⟩ := hp
      have he2 : e ∈ bf.folders := (sortFolders_perm bf.folders).subset he
      obtain ⟨h1, h2⟩ := hinv e he2
      refine ⟨h1, ?_⟩
      rcases h2 with h3 | h3 | h3
      · exact Or.inl h3
      · exact Or.inr (Or.inl h3)
      · refine Or.inr (Or.inr (Or.inr ?_))
        rw [List.mem_map] at h3 ⊢
        obtain ⟨e2, hm2, heq2⟩ := h3
        exact ⟨e2, (sortFolders_perm bf.folders).mem_iff.2 hm2, heq2⟩
    · exact List.Pairwise.map Prod.fst (fun a b hab => hab)
        (sortFolders_pairwise bf.folders)
  · exact absurd hpaths (by simp)

/-- For C8's correction: `add_folder("a/b")` succeeds, `assemble` returns a
byte stream whose only folder chunk has path `a/b`, and the parent `a` is
neither a root nor an earlier folder chunk's path, so the claim's ordering
property as stated is false on this reachable state. -/
theorem folder_parent_claim_counterexample :
    Blocks.init.add_folder ("a/b".toList) = some c8CounterBlocks ∧
    Blocks.assemble osEmpty 3 c8CounterBlocks =
      some (some [0, 0, 4, 0, 1, 0, 0, 1, 0, 5, 0, 0, 0, 1, 97, 1, 0, 5, 0, 1, 0,
        1, 98, 20, 0, 4, 0, 0, 0, 1]) ∧
    assembledFolderPaths osEmpty 3 c8CounterBlocks = some [("a/b".toList)] ∧
    parentsOkClaim [("a/b".toList)] = false :=
  ⟨rfl, rfl, rfl, rfl⟩

/-- Witness for the amended C8 theorem: the state after `add_folder("~/s")`
is reachable, assembles to a stream, and its folder paths satisfy the
amended ordering property. -/
theorem assembled_folder_parents_precede_witness :
    parentsOkAmended [("~/s".toList)] = true :=
  assembled_folder_parents_precede osEmpty 3 c8WitnessBlocks
    (@Reachable.add_folder osEmpty Blocks.init c8WitnessBlocks ("~/s".toList)
      Reachable.init (by rfl))
    [0, 0, 4, 0, 1, 0, 0, 1, 0, 5, 0, 1, 0, 1, 115, 3, 0, 4, 0, 0, 0, 0, 20, 0,
      4, 0, 0, 0, 1]
    [("~/s".toList)] (by rfl) (by rfl)

end GhTar
